import Mathlib

/-!
Verification of the ingestion & pattern-analysis engine of the
App-Insights-Log-Analysis repository.

The TypeScript core (`csvParser` utilities and the CSV worker) is shallowly
embedded here.  JavaScript strings are modelled as `List Char`; JavaScript
`Date` values as epoch milliseconds (`Int`); `Map` objects as association
lists that preserve insertion order, exactly as the JS `Map` iteration
order does.  The host `new Date()` calls inside one aggregation pass are
modelled by a single explicit `now : Int` parameter, and the host
`new Date(string)` parser by an explicit `parseTs : Str → Option Int`
parameter, since both are environment built-ins rather than repository code.
-/

set_option synthInstance.maxHeartbeats 1000000

namespace LogAnalysis

/-- JavaScript strings, modelled as lists of characters. -/
abbrev Str := List Char

/-- JavaScript word characters, the `\w` class: `[A-Za-z0-9_]`. -/
def isWordChar (c : Char) : Bool := c.isAlphanum || c == '_'

/-- JavaScript whitespace as used by `trim` and the `\s` class
(ASCII spaces, tabs, newlines, CR, vertical tab, form feed). -/
def isSpaceChar (c : Char) : Bool := c == ' ' || (9 ≤ c.toNat && c.toNat ≤ 13)

/-- Case-insensitive hexadecimal digit, the `[0-9a-f]` class under the `i` flag. -/
def isHexDigitCI (c : Char) : Bool :=
  c.isDigit || ('a' ≤ c && c ≤ 'f') || ('A' ≤ c && c ≤ 'F')

/-- Character-wise lower-casing, modelling `String.prototype.toLowerCase`
on ASCII data. -/
def toLowerStr (s : Str) : Str := s.map Char.toLower

/-- Embeds `String.prototype.trim`. -/
def trimStr (s : Str) : Str :=
  ((s.dropWhile isSpaceChar).reverse.dropWhile isSpaceChar).reverse

/-- Embeds `String.prototype.startsWith`, as a helper for `containsSub`. -/
def startsWithStr : Str → Str → Bool
  | [], _ => true
  | _ :: _, [] => false
  | a :: as, b :: bs => a == b && startsWithStr as bs

/-- Embeds `String.prototype.includes` (contiguous substring containment). -/
def containsSub (needle hay : Str) : Bool :=
  match hay with
  | [] => startsWithStr needle []
  | _ :: rest => startsWithStr needle hay || containsSub needle rest

/-! ### The message canonicalizer, `normalizeMessage`

The source applies four global regex replacements in order, then truncates
to 200 characters and trims:

```
.replace(/\b[0-9a-f]{8}-[0-9a-f]{4}-[0-9a-f]{4}-[0-9a-f]{4}-[0-9a-f]{12}\b/gi, '<GUID>')
.replace(/\b\d{4}-\d{2}-\d{2}[T ]\d{2}:\d{2}:\d{2}[^\s]*/g, '<TIMESTAMP>')
.replace(/\b\d+\b/g, '<NUM>')
.replace(/0x[0-9a-f]+/gi, '<HEX>')
.substring(0, 200)
.trim()
```

Each replacement is embedded as a left-to-right scanner that attempts the
pattern at every position, carrying one bit of lookbehind (`pw`: whether the
previous character of the *original* string is a word character) to decide
`\b` word boundaries, exactly as the JS regex engine does. -/

/-- Consume exactly `n` characters all satisfying `p`; return the rest. -/
def matchFixed : Nat → (Char → Bool) → Str → Option Str
  | 0, _, s => some s
  | _ + 1, _, [] => none
  | n + 1, p, c :: rest => if p c then matchFixed n p rest else none

/-- Consume one expected character; return the rest. -/
def matchChar (ch : Char) : Str → Option Str
  | [] => none
  | c :: rest => if c == ch then some rest else none

/-- Consume one character of the `[T ]` class; return the rest. -/
def matchTorSpace : Str → Option Str
  | [] => none
  | c :: rest => if c == 'T' || c == ' ' then some rest else none

/-- The body of the UUID regex
`[0-9a-f]{8}-[0-9a-f]{4}-[0-9a-f]{4}-[0-9a-f]{4}-[0-9a-f]{12}` (case-insensitive). -/
def matchUUID (s : Str) : Option Str :=
  (matchFixed 8 isHexDigitCI s).bind fun s1 =>
  (matchChar '-' s1).bind fun s2 =>
  (matchFixed 4 isHexDigitCI s2).bind fun s3 =>
  (matchChar '-' s3).bind fun s4 =>
  (matchFixed 4 isHexDigitCI s4).bind fun s5 =>
  (matchChar '-' s5).bind fun s6 =>
  (matchFixed 4 isHexDigitCI s6).bind fun s7 =>
  (matchChar '-' s7).bind fun s8 =>
  matchFixed 12 isHexDigitCI s8

/-- The date-time part of the timestamp regex,
`\d{4}-\d{2}-\d{2}[T ]\d{2}:\d{2}:\d{2}` (before the trailing `[^\s]*`). -/
def matchTSCore (s : Str) : Option Str :=
  (matchFixed 4 Char.isDigit s).bind fun s1 =>
  (matchChar '-' s1).bind fun s2 =>
  (matchFixed 2 Char.isDigit s2).bind fun s3 =>
  (matchChar '-' s3).bind fun s4 =>
  (matchFixed 2 Char.isDigit s4).bind fun s5 =>
  (matchTorSpace s5).bind fun s6 =>
  (matchFixed 2 Char.isDigit s6).bind fun s7 =>
  (matchChar ':' s7).bind fun s8 =>
  (matchFixed 2 Char.isDigit s8).bind fun s9 =>
  (matchChar ':' s9).bind fun s10 =>
  matchFixed 2 Char.isDigit s10

/-- Checks `\b` at a position following the matched text: the next character must not
be a word character (or the string must end). -/
def numBoundary : Str → Bool
  | [] => true
  | d :: _ => !isWordChar d

def guidTok : Str := "<GUID>".toList

def tsTok : Str := "<TIMESTAMP>".toList

def numTok : Str := "<NUM>".toList

def hexTok : Str := "<HEX>".toList

/-!
Each scanner recurses structurally on an explicit fuel (initially the string
length).  One unit of fuel is spent per scan position and every step consumes
at least one character, so the fuel never runs out when the wrapper below
supplies `s.length`; the `0` branch is unreachable then, and structural
recursion keeps every scanner kernel-reducible.
-/

/-- Scanner for the UUID replacement pass.  `pw` records whether the previous
character of the original string is a word character (false at the start). -/
def uuidPassF : Nat → Bool → Str → Str
  | 0, _, s => s
  | _ + 1, _, [] => []
  | fuel + 1, pw, c :: rest =>
    if pw then c :: uuidPassF fuel (isWordChar c) rest
    else
      match matchUUID (c :: rest) with
      | some rest' =>
        if numBoundary rest' then guidTok ++ uuidPassF fuel true rest'
        else c :: uuidPassF fuel (isWordChar c) rest
      | none => c :: uuidPassF fuel (isWordChar c) rest

/-- Scanner for the timestamp replacement pass. -/
def tsPassF : Nat → Bool → Str → Str
  | 0, _, s => s
  | _ + 1, _, [] => []
  | fuel + 1, pw, c :: rest =>
    if pw then c :: tsPassF fuel (isWordChar c) rest
    else
      match matchTSCore (c :: rest) with
      | some r =>
        tsTok ++ tsPassF fuel
          (match (r.takeWhile (fun ch => !isSpaceChar ch)).getLast? with
           | some ch => isWordChar ch
           | none => true)
          (r.dropWhile (fun ch => !isSpaceChar ch))
      | none => c :: tsPassF fuel (isWordChar c) rest

/-- Scanner for the `\b\d+\b` replacement pass. -/
def numPassF : Nat → Bool → Str → Str
  | 0, _, s => s
  | _ + 1, _, [] => []
  | fuel + 1, pw, c :: rest =>
    if c.isDigit && !pw then
      let rest' := rest.dropWhile Char.isDigit
      if numBoundary rest' then numTok ++ numPassF fuel true rest'
      else c :: numPassF fuel true rest
    else c :: numPassF fuel (isWordChar c) rest

/-- Scanner for the `0x[0-9a-f]+` replacement pass (no word boundaries). -/
def hexPassF : Nat → Str → Str
  | 0, s => s
  | _ + 1, [] => []
  | fuel + 1, c :: rest =>
    if c == '0' then
      match rest with
      | x :: rest2 =>
        if x == 'x' || x == 'X' then
          if (rest2.takeWhile isHexDigitCI).isEmpty then c :: hexPassF fuel (x :: rest2)
          else hexTok ++ hexPassF fuel (rest2.dropWhile isHexDigitCI)
        else c :: hexPassF fuel (x :: rest2)
      | [] => [c]
    else c :: hexPassF fuel rest

def uuidPass (s : Str) : Str := uuidPassF s.length false s

def tsPass (s : Str) : Str := tsPassF s.length false s

def numPass (s : Str) : Str := numPassF s.length false s

def hexPass (s : Str) : Str := hexPassF s.length s

/-- Embeds `normalizeMessage` (csvParser.ts): the four replacement passes in source
order, then `substring(0, 200)` and `trim()`. -/
def normalizeMessage (m : Str) : Str :=
  trimStr (List.take 200 (hexPass (numPass (tsPass (uuidPass m)))))

/-! ### Schema detection: `findColumn` / `detectColumnMapping` -/

/-- The three role-synonym lists from the source (`TIMESTAMP_PATTERNS`,
`SEVERITY_PATTERNS`, `MESSAGE_PATTERNS`). -/
def timestampSynonyms : List Str :=
  ["timestamp", "time", "datetime", "date", "created", "logged",
   "eventtime", "timegenerated", "ingestiontime", "clienttime",
   "Timestamp", "Time", "DateTime", "Date", "TimeGenerated"].map String.toList

def severitySynonyms : List Str :=
  ["severitylevel", "severity", "level", "loglevel", "type",
   "SeverityLevel", "Severity", "Level", "LogLevel", "Type"].map String.toList

def messageSynonyms : List Str :=
  ["message", "msg", "description", "text", "details", "content",
   "renderedmessage", "innermostmessage", "outermessage", "problemid",
   "Message", "Msg", "Description", "Text", "Details", "RenderedMessage"].map String.toList

/-- First `for` loop of `findColumn`: exact case-insensitive equality,
synonyms in priority order. -/
def findColumnExact (columns : List Str) : List Str → Option Str
  | [] => none
  | p :: ps =>
    match columns.find? (fun c => toLowerStr c == toLowerStr p) with
    | some c => some c
    | none => findColumnExact columns ps

/-- Second `for` loop of `findColumn`: case-insensitive substring containment. -/
def findColumnSub (columns : List Str) : List Str → Option Str
  | [] => none
  | p :: ps =>
    match columns.find? (fun c => containsSub (toLowerStr p) (toLowerStr c)) with
    | some c => some c
    | none => findColumnSub columns ps

/-- Embeds `findColumn` (csvParser.ts / csvWorker.ts): exact pass, then substring
pass, else the empty string. -/
def findColumn (columns patterns : List Str) : Str :=
  match findColumnExact columns patterns with
  | some c => c
  | none =>
    match findColumnSub columns patterns with
    | some c => c
    | none => []

structure ColumnMapping where
  timestamp : Str
  severity : Str
  message : Str
deriving DecidableEq

/-- Embeds `detectColumnMapping`. -/
def detectColumnMapping (columns : List Str) : ColumnMapping :=
  { timestamp := findColumn columns timestampSynonyms
    severity := findColumn columns severitySynonyms
    message := findColumn columns messageSynonyms }

/-! ### Field coercion: `parseSeverity`

`parseInt` with no radix argument is a host built-in; it is embedded below
with its JavaScript semantics on trimmed input: optional sign, then either a
`0x`/`0X` hexadecimal literal or a maximal leading run of decimal digits
(trailing garbage ignored), `NaN` (here `none`) when no digit follows. -/

def digitVal (c : Char) : Nat := c.toNat - '0'.toNat

def hexDigitVal (c : Char) : Nat :=
  if c.isDigit then c.toNat - '0'.toNat
  else if 'a' ≤ c && c ≤ 'f' then c.toNat - 'a'.toNat + 10
  else c.toNat - 'A'.toNat + 10

def decDigitsToNat (ds : Str) : Nat := ds.foldl (fun n c => n * 10 + digitVal c) 0

def hexDigitsToNat (ds : Str) : Nat := ds.foldl (fun n c => n * 16 + hexDigitVal c) 0

/-- The host `parseInt(str)` (radix auto-detected), restricted to exact
integer results; inputs here are short enough that the IEEE-754 rounding
JavaScript would apply beyond 2^53 never occurs. -/
def parseIntJS (s : Str) : Option Int :=
  let s1 := s.dropWhile isSpaceChar
  let signed : Int × Str :=
    match s1 with
    | '-' :: r => (-1, r)
    | '+' :: r => (1, r)
    | _ => (1, s1)
  let sign := signed.1
  let body := signed.2
  match body with
  | '0' :: x :: r =>
    if x == 'x' || x == 'X' then
      let ds := r.takeWhile isHexDigitCI
      if ds.isEmpty then none else some (sign * (hexDigitsToNat ds : Int))
    else
      let ds := body.takeWhile Char.isDigit
      if ds.isEmpty then none else some (sign * (decDigitsToNat ds : Int))
  | _ =>
    let ds := body.takeWhile Char.isDigit
    if ds.isEmpty then none else some (sign * (decDigitsToNat ds : Int))

/-- The textual-vocabulary fallback chain of `parseSeverity` (the four
`str.includes` guards, in source order, with the final default 1). -/
def textRank (str : Str) : Int :=
  if containsSub "error".toList str || containsSub "critical".toList str
      || containsSub "fatal".toList str then 3
  else if containsSub "warn".toList str then 2
  else if containsSub "info".toList str || containsSub "information".toList str then 1
  else if containsSub "verbose".toList str || containsSub "debug".toList str
      || containsSub "trace".toList str then 0
  else 1

/-- Embeds `parseSeverity` (csvParser.ts / csvWorker.ts).  `none` models the
`undefined` cell; the `null` and `''` cases of the source's first guard
coincide with `none`/`some []` here.  An in-range `parseInt` result takes
precedence; everything else falls through to `textRank`. -/
def parseSeverity (value : Option Str) : Int :=
  match value with
  | none => 0
  | some v =>
    if v = [] then 0
    else
      let str := trimStr (toLowerStr v)
      match parseIntJS str with
      | some n => if 0 ≤ n ∧ n ≤ 4 then n else textRank str
      | none => textRank str

/-! ### The record builder (`parseCSV` row mapping) and the ingestion sort -/

/-- A raw CSV row: ordered association of column name to cell string.
A missing association models the JavaScript `undefined` cell. -/
abbrev Row := List (Str × Str)

def rowGet (row : Row) (k : Str) : Option Str :=
  (row.find? (fun e => e.fst == k)).map Prod.snd

structure LogEntry where
  _id : Nat
  _timestamp : Option Int
  _severity : Int
  _message : Str
  _raw : Row
deriving DecidableEq

/-- Embeds `parseTimestamp` applied to a cell: the source returns `null` for a
falsy cell (`undefined` or `''`), otherwise defers to the host `new Date`
parser, abstracted as `parseTs`. -/
def parseTimestampCell (parseTs : Str → Option Int) (v : Option Str) : Option Int :=
  match v with
  | none => none
  | some s => if s = [] then none else parseTs s

/-- One row of the `parseCSV` mapping (csvParser.ts lines 1795-1809):
timestamp, severity and message extraction plus the `_id := index` field. -/
def buildLog (parseTs : Str → Option Int) (mapping : ColumnMapping)
    (idx : Nat) (row : Row) : LogEntry :=
  { _id := idx
    _timestamp :=
      if mapping.timestamp ≠ [] then parseTimestampCell parseTs (rowGet row mapping.timestamp)
      else none
    _severity :=
      if mapping.severity ≠ [] then parseSeverity (rowGet row mapping.severity)
      else 1
    _message :=
      if mapping.message ≠ [] then (rowGet row mapping.message).getD []
      else ((row.map Prod.snd).find? (fun v => 50 < v.length)).getD []
    _raw := row }

def buildLogs (parseTs : Str → Option Int) (mapping : ColumnMapping) :
    Nat → List Row → List LogEntry
  | _, [] => []
  | i, r :: rs => buildLog parseTs mapping i r :: buildLogs parseTs mapping (i + 1) rs

/-- The `logs.sort` comparator of `parseCSV`/the worker, as a boolean
"may come first" relation: records without a timestamp sort after all others,
and timestamped records sort newest first. -/
def tsLe (a b : LogEntry) : Bool :=
  match a._timestamp, b._timestamp with
  | none, none => true
  | none, some _ => false
  | some _, none => true
  | some ta, some tb => tb ≤ ta

/-- The synchronous core of `parseCSV` / the worker's `complete` handler:
detect the column mapping, build one record per row (ids in input order),
then sort newest-first with null timestamps last.  `Array.prototype.sort`
is stable and this comparator is a total preorder, so the stable sort's
output is unique; the stable `insertionSort` embeds it. -/
def parseCSVLogs (parseTs : Str → Option Int) (columns : List Str)
    (rows : List Row) : List LogEntry :=
  let mapping := detectColumnMapping columns
  List.insertionSort (fun a b => tsLe a b = true) (buildLogs parseTs mapping 0 rows)

/-! ### Pattern aggregation: `extractErrorPatterns` -/

structure ErrorPattern where
  message : Str
  normalized : Str
  count : Nat
  firstSeen : Int
  lastSeen : Int
  ids : List Nat
  severity : Int
  errorCount : Nat
  warningCount : Nat
deriving DecidableEq

/-- The pattern object created on first sighting of a canonical key
(before the per-record updates run). -/
def freshPattern (now : Int) (log : LogEntry) (k : Str) : ErrorPattern :=
  { message := log._message.take 200
    normalized := k
    count := 0
    firstSeen := log._timestamp.getD now
    lastSeen := log._timestamp.getD now
    ids := []
    severity := log._severity
    errorCount := 0
    warningCount := 0 }

/-- The per-record mutations of `extractErrorPatterns`: count, ids,
error/warning tallies, dominant severity, firstSeen/lastSeen. -/
def updatePattern (log : LogEntry) (p : ErrorPattern) : ErrorPattern :=
  let p1 := { p with count := p.count + 1, ids := p.ids ++ [log._id] }
  let p2 :=
    if log._severity == 3 then { p1 with errorCount := p1.errorCount + 1 }
    else if log._severity == 2 then { p1 with warningCount := p1.warningCount + 1 }
    else p1
  let p3 := { p2 with severity := if p2.errorCount > 0 then 3 else 2 }
  match log._timestamp with
  | none => p3
  | some t =>
    let p4 := if t < p3.firstSeen then { p3 with firstSeen := t } else p3
    if t > p4.lastSeen then { p4 with lastSeen := t } else p4

/-- One iteration of the `logs.forEach` loop of `extractErrorPatterns`,
over the insertion-ordered grouping table. -/
def processLog (now : Int) (tbl : List (Str × ErrorPattern)) (log : LogEntry) :
    List (Str × ErrorPattern) :=
  if log._severity < 2 then tbl
  else
    let k := normalizeMessage log._message
    let tbl1 :=
      if (tbl.find? (fun e => e.fst == k)).isSome then tbl
      else tbl ++ [(k, freshPattern now log k)]
    tbl1.map (fun e => if e.fst == k then (e.fst, updatePattern log e.snd) else e)

/-- The grouping table after the whole `forEach` pass. -/
def patternTable (now : Int) (logs : List LogEntry) : List (Str × ErrorPattern) :=
  logs.foldl (processLog now) []

/-- The `(a, b) => b.count - a.count` comparator as a boolean relation. -/
def countLe (a b : ErrorPattern) : Bool := b.count ≤ a.count

/-- Embeds `extractErrorPatterns`: aggregate, sort by count descending, cap at 100.
`now` stands for the `new Date()` creation instant of the aggregation pass. -/
def extractErrorPatterns (now : Int) (logs : List LogEntry) : List ErrorPattern :=
  (List.insertionSort (fun a b => countLe a b = true)
    ((patternTable now logs).map Prod.snd)).take 100

/-! ### File statistics and the differencer: `calculateFileStats`, `compareFiles` -/

structure FileStats where
  total : Nat
  errors : Nat
  warnings : Nat
  info : Nat
  verbose : Nat
  timeStart : Option Int
  timeEnd : Option Int
deriving DecidableEq

/-- Embeds `calculateFileStats`. -/
def calculateFileStats (logs : List LogEntry) : FileStats :=
  let withTime := List.insertionSort
    (fun a b => a._timestamp.getD 0 ≤ b._timestamp.getD 0)
    (logs.filter (fun l => l._timestamp.isSome))
  { total := logs.length
    errors := (logs.filter (fun l => l._severity == 3)).length
    warnings := (logs.filter (fun l => l._severity == 2)).length
    info := (logs.filter (fun l => l._severity == 1)).length
    verbose := (logs.filter (fun l => l._severity == 0)).length
    timeStart := withTime.head?.bind (fun l => l._timestamp)
    timeEnd := withTime.getLast?.bind (fun l => l._timestamp) }

/-- Per-key accumulator of the two diff-side grouping passes. -/
structure DiffCount where
  count : Nat
  ids : List Nat
deriving DecidableEq

def lookupKey {α : Type} (tbl : List (Str × α)) (k : Str) : Option α :=
  (tbl.find? (fun e => e.fst == k)).map Prod.snd

/-- One iteration of a diff-side build loop of `compareFiles`: the grouping
table plus the shared `allPatternMessages` table. -/
def diffStep (st : List (Str × DiffCount) × List (Str × Str)) (log : LogEntry) :
    List (Str × DiffCount) × List (Str × Str) :=
  if log._severity < 2 then st
  else
    let k := normalizeMessage log._message
    let tbl := st.1
    let msgs := st.2
    let expanded :=
      if (lookupKey tbl k).isSome then (tbl, msgs)
      else
        (tbl ++ [(k, ⟨0, []⟩)],
         if (lookupKey msgs k).isSome then msgs else msgs ++ [(k, log._message.take 200)])
    (expanded.1.map (fun e =>
        if e.fst == k then (e.fst, ⟨e.snd.count + 1, e.snd.ids ++ [log._id]⟩) else e),
     expanded.2)

/-- Embeds `allPatternMessages.get(normalized) || normalized`: a missing or empty
stored message falls back to the canonical key itself. -/
def displayMessage (msgs : List (Str × Str)) (k : Str) : Str :=
  match lookupKey msgs k with
  | some m => if m = [] then k else m
  | none => k

/-- A pattern emitted into the `file1Only`/`file2Only` partitions
(`firstSeen`/`lastSeen` are fresh `new Date()` instants, severity fixed to 3). -/
def onlyPattern (now : Int) (msgs : List (Str × Str)) (k : Str) (data : DiffCount) :
    ErrorPattern :=
  { message := displayMessage msgs k
    normalized := k
    count := data.count
    firstSeen := now
    lastSeen := now
    ids := data.ids
    severity := 3
    errorCount := data.count
    warningCount := 0 }

structure BothEntry where
  pattern : ErrorPattern
  file1Count : Nat
  file2Count : Nat
  change : Rat
deriving DecidableEq

structure ComparisonSummary where
  file1Errors : Nat
  file2Errors : Nat
  file1Warnings : Nat
  file2Warnings : Nat
  newPatterns : Nat
  resolvedPatterns : Nat
  increasedPatterns : Nat
  decreasedPatterns : Nat
deriving DecidableEq

structure ComparisonResult where
  file1Only : List ErrorPattern
  file2Only : List ErrorPattern
  bothFiles : List BothEntry
  summary : ComparisonSummary
deriving DecidableEq

/-- The `Math.abs(b.change) - Math.abs(a.change)` comparator. -/
def changeLe (a b : BothEntry) : Bool := |b.change| ≤ |a.change|

/-- Embeds `compareFiles`.  The percentage `change` is computed in exact rational
arithmetic; the claims verified here do not depend on the IEEE-754 rounding
of the source's floating-point division. -/
def compareFiles (now : Int) (logs1 logs2 : List LogEntry) : ComparisonResult :=
  let st1 := logs1.foldl diffStep ([], [])
  let patterns1 := st1.1
  let st2 := logs2.foldl diffStep ([], st1.2)
  let patterns2 := st2.1
  let msgs := st2.2
  let file1Only :=
    List.insertionSort (fun a b => countLe a b = true)
      ((patterns1.filter (fun e => (lookupKey patterns2 e.fst).isNone)).map
        (fun e => onlyPattern now msgs e.fst e.snd))
  let file2Only :=
    List.insertionSort (fun a b => countLe a b = true)
      ((patterns2.filter (fun e => (lookupKey patterns1 e.fst).isNone)).map
        (fun e => onlyPattern now msgs e.fst e.snd))
  let bothFiles :=
    List.insertionSort (fun a b => changeLe a b = true)
      (patterns2.filterMap (fun e =>
        match lookupKey patterns1 e.fst with
        | some data1 =>
          some { pattern :=
                   { message := displayMessage msgs e.fst
                     normalized := e.fst
                     count := e.snd.count
                     firstSeen := now
                     lastSeen := now
                     ids := e.snd.ids
                     severity := 3
                     errorCount := e.snd.count
                     warningCount := 0 }
                 file1Count := data1.count
                 file2Count := e.snd.count
                 change := (((e.snd.count : Int) - (data1.count : Int) : Int) : Rat)
                     / (data1.count : Rat) * 100 }
        | none => none))
  let stats1 := calculateFileStats logs1
  let stats2 := calculateFileStats logs2
  { file1Only := file1Only
    file2Only := file2Only
    bothFiles := bothFiles
    summary :=
      { file1Errors := stats1.errors
        file2Errors := stats2.errors
        file1Warnings := stats1.warnings
        file2Warnings := stats2.warnings
        newPatterns := file2Only.length
        resolvedPatterns := file1Only.length
        increasedPatterns := (bothFiles.filter (fun b => 10 < b.change)).length
        decreasedPatterns := (bothFiles.filter (fun b => b.change < -10)).length } }

/-! ## The aggregation invariant

`patternTable` is characterised exactly: its keys are the distinct canonical
keys of the severity-≥2 records in first-encounter order, and the pattern
stored under a key is determined by the ordered list of records contributing
to that key (`contribs`). -/

/-- The canonical grouping key of a record. -/
def keyOf (l : LogEntry) : Str := normalizeMessage l._message

/-- The records of `logs` contributing to canonical key `k`:
severity ≥ 2 and canonical key `k`, in input order. -/
def contribs (logs : List LogEntry) (k : Str) : List LogEntry :=
  logs.filter (fun l => decide (2 ≤ l._severity) && (keyOf l == k))

/-- The known timestamps of a record list, in order. -/
def knownTs (ls : List LogEntry) : List Int := ls.filterMap (fun l => l._timestamp)

/-- The pattern value determined by the ordered contribution list `ls` whose
first element is `c` (aggregation-creation instant `now`).  Intended use:
`ls = c :: cs`. -/
def patternOf (now : Int) (k : Str) (c : LogEntry) (ls : List LogEntry) : ErrorPattern :=
  { message := c._message.take 200
    normalized := k
    count := ls.length
    firstSeen := (knownTs ls).foldl min (c._timestamp.getD now)
    lastSeen := (knownTs ls).foldl max (c._timestamp.getD now)
    ids := ls.map (fun l => l._id)
    severity := if 0 < (ls.filter (fun l => l._severity == 3)).length then 3 else 2
    errorCount := (ls.filter (fun l => l._severity == 3)).length
    warningCount := (ls.filter (fun l => l._severity == 2)).length }

/-- A table entry is good when its pattern is exactly the one determined by
its (nonempty) contribution list. -/
def goodEntry (now : Int) (logs : List LogEntry) (e : Str × ErrorPattern) : Prop :=
  ∃ c cs, contribs logs e.fst = c :: cs ∧ e.snd = patternOf now e.fst c (c :: cs)

/-! ## Bridges from `extractErrorPatterns` to the grouping table -/

instance : IsTotal ErrorPattern (fun a b => countLe a b = true) :=
  ⟨fun a b => by simp [countLe]; omega⟩

instance : IsTrans ErrorPattern (fun a b => countLe a b = true) :=
  ⟨fun a b c h1 h2 => by simp [countLe] at *; omega⟩

/-- The number of distinct canonical keys among severity-≥2 records. -/
def distinctKeyCount (logs : List LogEntry) : Nat :=
  ((logs.filter (fun l => decide (2 ≤ l._severity))).map keyOf).toFinset.card

/-- Defines 101 records with pairwise distinct canonical keys (messages are runs of
`a` of lengths 0..100, which `normalizeMessage` leaves unchanged). -/
def capLogs : List LogEntry :=
  (List.range 101).map (fun i => ⟨i, none, 3, List.replicate i 'a', []⟩)

/-! ## C5 — the diff partitions are disjoint and exhaustive -/

/-- The canonical keys contributed by one side (severity ≥ 2 records). -/
def sideKeys (logs : List LogEntry) : List Str :=
  (logs.filter (fun l => decide (2 ≤ l._severity))).map keyOf

/-! ## C10 — ingestion delivers records newest-first, nulls last, ids intact -/

instance : IsTotal LogEntry (fun a b => tsLe a b = true) :=
  ⟨fun a b => by
    cases ha : a._timestamp <;> cases hb : b._timestamp <;>
      simp [tsLe, ha, hb] <;> omega⟩

instance : IsTrans LogEntry (fun a b => tsLe a b = true) :=
  ⟨fun a b c h1 h2 => by
    cases ha : a._timestamp <;> cases hb : b._timestamp <;> cases hc : c._timestamp <;>
      simp_all [tsLe] <;> omega⟩

/-! ## C6 — canonicalization collapses volatile substrings

The claim quantifies over "messages that differ only in digit runs, UUIDs,
ISO timestamps, or hex literals".  `DiffOnly` formalises that relation from
the spec's words: the two messages decompose into identical literal parts
with same-class volatile fillers at each slot. -/

/-- The four volatile substring classes of the spec. -/
inductive VolClass
  | digitRun
  | uuid
  | isoTs
  | hexLit

/-- Predicate `volOk cls v`: `v` is exactly one volatile substring of class `cls`
(shapes mirror the canonicalizer's regexes). -/
def volOk : VolClass → Str → Prop
  | .digitRun, s => s ≠ [] ∧ ∀ c ∈ s, c.isDigit = true
  | .uuid, s => matchUUID s = some []
  | .isoTs, s => ∃ r, matchTSCore s = some r ∧ ∀ c ∈ r, isSpaceChar c = false
  | .hexLit, s => ∃ x ds, s = '0' :: x :: ds ∧ (x = 'x' ∨ x = 'X') ∧ ds ≠ [] ∧
      ∀ c ∈ ds, isHexDigitCI c = true

/-- Modelled from the spec: "messages m1, m2 that differ only in digit runs,
UUIDs, ISO timestamps, or hex literals" — the two strings are built from the
same literal characters with same-class volatile substrings at the same
positions. -/
inductive DiffOnly : Str → Str → Prop
  | nil : DiffOnly [] []
  | lit {s t : Str} (c : Char) : DiffOnly s t → DiffOnly (c :: s) (c :: t)
  | vol {s t : Str} (cls : VolClass) {v w : Str} :
      volOk cls v → volOk cls w → DiffOnly s t → DiffOnly (v ++ s) (w ++ t)

/-! ### The amended C6: templates of literal chunks and digit runs

A sanitised template alternates literal chunks (free of digits, dashes and
`x`, flanking every slot with non-word characters) with nonempty digit runs.
Messages instantiating one template with different digit runs collapse to
the same canonical key. -/

/-- Render a template: each pair is (literal chunk, digit run), followed by
a trailing literal chunk. -/
def renderF : List (Str × Str) → Str → Str
  | [], t => t
  | (l, d) :: rest, t => l ++ (d ++ renderF rest t)

/-- The canonical form of any instantiation: every slot replaced by `<NUM>`. -/
def renderTokL : List Str → Str → Str
  | [], t => t
  | l :: rest, t => l ++ (numTok ++ renderTokL rest t)

/-- A literal chunk admissible in a sanitised template: no digits (slots stay
maximal), no dashes (no UUID/timestamp shapes), no `x`/`X` (no hex shapes). -/
def litOkB (l : Str) : Bool :=
  l.all (fun c => !c.isDigit && c != '-' && c != 'x' && c != 'X')

/-- The character preceding a slot must not be a word character; an empty
chunk is allowed only at the absolute start of the message. -/
def lastNonWordB (l : Str) (atStart : Bool) : Bool :=
  match l.getLast? with
  | some c => !isWordChar c
  | none => atStart

/-- The character following a slot (the head of the rendered remainder)
must not be a word character, unless the message ends there. -/
def pairsHeadOkB : List (Str × Str) → Str → Bool
  | (l, _) :: _, _ =>
    !l.isEmpty && (match l.head? with
      | some c => !isWordChar c
      | none => true)
  | [], t =>
    t.isEmpty || (match t.head? with
      | some c => !isWordChar c
      | none => true)

/-- Well-formedness of a sanitised template (`atStart`: no characters
precede the first chunk). -/
def pairsOkB : Bool → List (Str × Str) → Str → Bool
  | _, [], t => litOkB t
  | atStart, (l, d) :: rest, t =>
    litOkB l && lastNonWordB l atStart && !d.isEmpty && d.all Char.isDigit &&
    pairsHeadOkB rest t && pairsOkB false rest t

/-- The word-character state after scanning `l`, starting from `pw`. -/
def lastWord (l : Str) (pw : Bool) : Bool :=
  match l.getLast? with
  | some c => isWordChar c
  | none => pw

theorem dropWhile_length_le (p : Char → Bool) (l : Str) :
    (l.dropWhile p).length ≤ l.length := by
  induction l with
  | nil => simp [List.dropWhile]
  | cons a l ih =>
    by_cases h : p a
    · simp [List.dropWhile, h]; omega
    · simp [List.dropWhile, h]

theorem matchFixed_length {n : Nat} {p : Char → Bool} {s s' : Str}
    (h : matchFixed n p s = some s') : s'.length + n = s.length := by
  induction n generalizing s with
  | zero => simp [matchFixed] at h; simp [h]
  | succ n ih =>
    match s with
    | [] => simp [matchFixed] at h
    | c :: rest =>
      simp only [matchFixed] at h
      split at h
      · have := ih h; simp; omega
      · exact absurd h (by simp)

theorem matchChar_length {ch : Char} {s s' : Str}
    (h : matchChar ch s = some s') : s'.length + 1 = s.length := by
  match s with
  | [] => simp [matchChar] at h
  | c :: rest =>
    simp only [matchChar] at h
    split at h
    · simp at h; simp [← h]
    · exact absurd h (by simp)

theorem matchTorSpace_length {s s' : Str}
    (h : matchTorSpace s = some s') : s'.length + 1 = s.length := by
  match s with
  | [] => simp [matchTorSpace] at h
  | c :: rest =>
    simp only [matchTorSpace] at h
    split at h
    · simp at h; simp [← h]
    · exact absurd h (by simp)

theorem matchUUID_length {s s' : Str} (h : matchUUID s = some s') :
    s'.length + 36 = s.length := by
  simp only [matchUUID, Option.bind_eq_some] at h
  obtain ⟨s1, h1, s2, h2, s3, h3, s4, h4, s5, h5, s6, h6, s7, h7, s8, h8, h9⟩ := h
  have e1 := matchFixed_length h1
  have e2 := matchChar_length h2
  have e3 := matchFixed_length h3
  have e4 := matchChar_length h4
  have e5 := matchFixed_length h5
  have e6 := matchChar_length h6
  have e7 := matchFixed_length h7
  have e8 := matchChar_length h8
  have e9 := matchFixed_length h9
  omega

theorem matchTSCore_length {s s' : Str} (h : matchTSCore s = some s') :
    s'.length + 19 = s.length := by
  simp only [matchTSCore, Option.bind_eq_some] at h
  obtain ⟨s1, h1, s2, h2, s3, h3, s4, h4, s5, h5, s6, h6, s7, h7, s8, h8, s9, h9, s10, h10, h11⟩ := h
  have e1 := matchFixed_length h1
  have e2 := matchChar_length h2
  have e3 := matchFixed_length h3
  have e4 := matchChar_length h4
  have e5 := matchFixed_length h5
  have e6 := matchTorSpace_length h6
  have e7 := matchFixed_length h7
  have e8 := matchChar_length h8
  have e9 := matchFixed_length h9
  have e10 := matchChar_length h10
  have e11 := matchFixed_length h11
  omega

/-! ## Generic association-table and list lemmas -/

theorem find_key_isSome {α : Type} (tbl : List (Str × α)) (k : Str) :
    (tbl.find? (fun e => e.fst == k)).isSome = true ↔ k ∈ tbl.map Prod.fst := by
  induction tbl with
  | nil => simp
  | cons e tl ih =>
    by_cases h : e.fst = k
    · rw [List.find?_cons_of_pos _ (by simpa using h)]
      simp [h]
    · rw [List.find?_cons_of_neg _ (by simpa using h)]
      simp [ih, Ne.symm h]

theorem isSome_map {α β : Type} (f : α → β) (o : Option α) :
    (o.map f).isSome = o.isSome := by
  cases o <;> rfl

theorem lookupKey_isSome {α : Type} (tbl : List (Str × α)) (k : Str) :
    (lookupKey tbl k).isSome = true ↔ k ∈ tbl.map Prod.fst := by
  unfold lookupKey
  rw [isSome_map, find_key_isSome]

theorem lookupKey_isNone {α : Type} (tbl : List (Str × α)) (k : Str) :
    (lookupKey tbl k).isNone = true ↔ k ∉ tbl.map Prod.fst := by
  rw [← lookupKey_isSome]
  cases h : lookupKey tbl k <;> simp [h]

/-! ## C7 — severity coercion is total -/

/-- Claim C7. Severity coercion (`parseSeverity`) is total: every input —
absent (`none`), numeric, or arbitrary string — yields an integer rank in
[0,4]; in particular the out-of-range numeric strings "5" and "-1" fall
through the integer fast path to text matching and, matching nothing,
produce the default 1 (Info). -/
theorem C7_severity_coercion_total :
    (∀ v : Option Str, 0 ≤ parseSeverity v ∧ parseSeverity v ≤ 4) ∧
    parseSeverity (some ('5' :: [])) = 1 ∧
    parseSeverity (some ('-' :: '1' :: [])) = 1 := by
  have htext : ∀ str : Str, 0 ≤ textRank str ∧ textRank str ≤ 4 := by
    intro str
    unfold textRank
    split_ifs <;> omega
  refine ⟨fun v => ?_, by decide, by decide⟩
  unfold parseSeverity
  match v with
  | none => simp
  | some s =>
    by_cases h : s = []
    · simp [h]
    · simp only [h, if_false]
      cases hp : parseIntJS (trimStr (toLowerStr s)) with
      | none => simpa [hp] using htext (trimStr (toLowerStr s))
      | some n =>
        simp only [hp]
        by_cases hr : 0 ≤ n ∧ n ≤ 4
        · rw [if_pos hr]; omega
        · rw [if_neg hr]; exact htext (trimStr (toLowerStr s))

/-! ## C8 — exact column match always outranks substring match -/

theorem findColumnExact_spec {columns : List Str} {patterns : List Str}
    (h : ∃ p ∈ patterns, ∃ c ∈ columns, toLowerStr c = toLowerStr p) :
    ∃ c, findColumnExact columns patterns = some c ∧ c ∈ columns ∧
      ∃ p ∈ patterns, toLowerStr c = toLowerStr p := by
  induction patterns with
  | nil => simp at h
  | cons p ps ih =>
    cases hf : columns.find? (fun c => toLowerStr c == toLowerStr p) with
    | some c =>
      refine ⟨c, by simp [findColumnExact, hf], List.mem_of_find?_eq_some hf, p, by simp, ?_⟩
      have := List.find?_some hf
      simpa using this
    | none =>
      obtain ⟨q, hq, c, hc, he⟩ := h
      rcases List.mem_cons.mp hq with rfl | hq
      · exfalso
        have := List.find?_eq_none.mp hf c hc
        simp [he] at this
      · obtain ⟨c', h1, h2, q', h3, h4⟩ := ih ⟨q, hq, c, hc, he⟩
        exact ⟨c', by simp [findColumnExact, hf, h1], h2, q', List.mem_cons_of_mem _ h3, h4⟩

/-- Claim C8. In column-schema detection, whenever any column is an exact
case-insensitive match of any synonym for a role, `findColumn` returns an
exact match: a substring match can be returned only when no exact match
exists, regardless of synonym priority order. -/
theorem C8_exact_match_outranks_substring (columns patterns : List Str)
    (h : ∃ p ∈ patterns, ∃ c ∈ columns, toLowerStr c = toLowerStr p) :
    ∃ c ∈ columns, findColumn columns patterns = c ∧
      ∃ p ∈ patterns, toLowerStr c = toLowerStr p := by
  obtain ⟨c, h1, h2, h3⟩ := findColumnExact_spec h
  exact ⟨c, h2, by simp [findColumn, h1], h3⟩

/-- Witness for C8: with columns `["MyTimeGenerated", "Time"]`, the column
`"Time"` exactly equals the synonym `"time"` (case-insensitively), so it is
returned even though `"MyTimeGenerated"` substring-matches the
higher-priority synonym `"timegenerated"`. -/
theorem C8_exact_match_outranks_substring_witness :
    ∃ c ∈ ["MyTimeGenerated".toList, "Time".toList],
      findColumn ["MyTimeGenerated".toList, "Time".toList] timestampSynonyms = c ∧
      ∃ p ∈ timestampSynonyms, toLowerStr c = toLowerStr p :=
  C8_exact_match_outranks_substring _ _
    ⟨"time".toList, by decide, "Time".toList, by decide, by decide⟩

/-! ## C3 — default severity for rows without a severity value -/

/-- Claim C3, counterexample. The claim states that a row with no available
severity value gets severity 0 (Verbose) *including when no severity column
was detected at all*.  On input with the single column `"message"` (no
severity column detected), the built record has severity 1 (Info), not 0:
the row mapper uses `parseSeverity` (whose absent-value default is 0) only
when a severity column exists, and a fixed default of 1 otherwise. -/
theorem C3_counterexample :
    ((parseCSVLogs (fun _ => none) ["message".toList]
        [[("message".toList, "hello".toList)]]).map (fun l => l._severity)) = [1] ∧
    (1 : Int) ≠ 0 :=
  ⟨by decide, by decide⟩

/-- Claim C3, amended. When a severity column *was* detected, a row whose
severity cell is absent (`undefined`) or empty coerces to severity 0
(Verbose); when no severity column was detected, every row's severity is
the fixed default 1 (Info). -/
theorem C3_empty_severity_defaults (parseTs : Str → Option Int)
    (mapping : ColumnMapping) (idx : Nat) (row : Row) :
    (mapping.severity ≠ [] →
      (rowGet row mapping.severity = none ∨ rowGet row mapping.severity = some []) →
      (buildLog parseTs mapping idx row)._severity = 0) ∧
    (mapping.severity = [] → (buildLog parseTs mapping idx row)._severity = 1) := by
  constructor
  · intro hcol hcell
    simp only [buildLog, hcol, if_true, ne_eq, not_false_iff]
    rcases hcell with h | h <;> simp [h, parseSeverity]
  · intro hcol
    simp [buildLog, hcol]

/-- Witness for C3 (amended): a record built with a detected severity column
but an absent cell has severity 0, and one built with no detected severity
column has severity 1. -/
theorem C3_empty_severity_defaults_witness :
    (buildLog (fun _ => none) ⟨[], "severity".toList, []⟩ 0 [])._severity = 0 ∧
    (buildLog (fun _ => none) ⟨[], [], []⟩ 0 [])._severity = 1 :=
  ⟨(C3_empty_severity_defaults (fun _ => none) ⟨[], "severity".toList, []⟩ 0 []).1
      (by decide) (Or.inl rfl),
   (C3_empty_severity_defaults (fun _ => none) ⟨[], [], []⟩ 0 []).2 rfl⟩

theorem if_lt_eq_min (x t : Int) : (if t < x then t else x) = min x t := by
  split <;> omega

theorem if_gt_eq_max (x t : Int) : (if t > x then t else x) = max x t := by
  split <;> omega

theorem knownTs_append (cs : List LogEntry) (l : LogEntry) :
    knownTs (cs ++ [l]) = knownTs cs ++ (match l._timestamp with
      | some t => [t]
      | none => []) := by
  cases hts : l._timestamp <;> simp [knownTs, List.filterMap_append, hts]

theorem foldl_min_append (i : Int) (ts : List Int) (t : Int) :
    (ts ++ [t]).foldl min i = min (ts.foldl min i) t := by
  simp [List.foldl_append]

theorem foldl_max_append (i : Int) (ts : List Int) (t : Int) :
    (ts ++ [t]).foldl max i = max (ts.foldl max i) t := by
  simp [List.foldl_append]

theorem beq_two_of_three {n : Int} (h : (n == 3) = true) : (n == 2) = false := by
  simp at h ⊢
  omega

/-- The per-record update sends the pattern determined by `ls` to the
pattern determined by `ls ++ [l]`. -/
theorem updatePattern_patternOf (now : Int) (k : Str) (c : LogEntry)
    (ls : List LogEntry) (l : LogEntry) :
    updatePattern l (patternOf now k c ls) = patternOf now k c (ls ++ [l]) := by
  cases hts : l._timestamp with
  | none =>
    by_cases h3 : l._severity == 3
    · have h2 := beq_two_of_three h3
      simp [updatePattern, patternOf, h3, h2, hts, List.filter_append, knownTs_append]
    · by_cases h2 : l._severity == 2 <;>
        simp [updatePattern, patternOf, h3, h2, hts, List.filter_append, knownTs_append]
  | some t =>
    by_cases h3 : l._severity == 3
    · have h2 := beq_two_of_three h3
      simp [updatePattern, patternOf, h3, h2, hts, List.filter_append, knownTs_append,
            foldl_min_append, foldl_max_append]
      split_ifs <;> simp_all <;> omega
    · by_cases h2 : l._severity == 2 <;>
        (simp [updatePattern, patternOf, h3, h2, hts, List.filter_append, knownTs_append,
               foldl_min_append, foldl_max_append]
         split_ifs <;> simp_all <;> omega)

/-- Creating and immediately updating a fresh pattern yields the pattern
determined by the singleton contribution list. -/
theorem updatePattern_fresh (now : Int) (k : Str) (l : LogEntry) :
    updatePattern l (freshPattern now l k) = patternOf now k l [l] := by
  cases hts : l._timestamp with
  | none =>
    by_cases h3 : l._severity == 3
    · have h2 := beq_two_of_three h3
      simp [updatePattern, freshPattern, patternOf, knownTs, h3, h2, hts]
    · by_cases h2 : l._severity == 2 <;>
        simp [updatePattern, freshPattern, patternOf, knownTs, h3, h2, hts]
  | some t =>
    by_cases h3 : l._severity == 3
    · have h2 := beq_two_of_three h3
      simp [updatePattern, freshPattern, patternOf, knownTs, h3, h2, hts,
            if_lt_eq_min, if_gt_eq_max]
    · by_cases h2 : l._severity == 2 <;>
        simp [updatePattern, freshPattern, patternOf, knownTs, h3, h2, hts,
              if_lt_eq_min, if_gt_eq_max]

theorem contribs_append_qual {l : LogEntry} {k : Str} (logs : List LogEntry)
    (hq : 2 ≤ l._severity) (hk : keyOf l = k) :
    contribs (logs ++ [l]) k = contribs logs k ++ [l] := by
  simp [contribs, List.filter_append, hq, hk]

theorem contribs_append_skip {l : LogEntry} {k : Str} (logs : List LogEntry)
    (h : ¬(2 ≤ l._severity ∧ keyOf l = k)) :
    contribs (logs ++ [l]) k = contribs logs k := by
  by_cases hq : 2 ≤ l._severity
  · have hk : keyOf l ≠ k := fun hk => h ⟨hq, hk⟩
    simp [contribs, List.filter_append, hk]
  · simp [contribs, List.filter_append, hq]

theorem map_fst_upd {α : Type} (tbl : List (Str × α)) (k : Str) (f : α → α) :
    (tbl.map (fun e => if e.fst == k then (e.fst, f e.snd) else e)).map Prod.fst
      = tbl.map Prod.fst := by
  rw [List.map_map]
  apply List.map_congr_left
  intro e _
  by_cases h : e.fst = k <;> simp [h]

theorem map_fst_congr {α : Type} (tbl : List (Str × α)) (upd : Str × α → Str × α)
    (h : ∀ e, (upd e).fst = e.fst) :
    (tbl.map upd).map Prod.fst = tbl.map Prod.fst := by
  rw [List.map_map]
  apply List.map_congr_left
  intro e _
  exact h e

/-- The key-set/contents characterisation of the grouping table. -/
theorem patternTable_spec (now : Int) (logs : List LogEntry) :
    ((patternTable now logs).map Prod.fst).Nodup ∧
    (∀ k, k ∈ (patternTable now logs).map Prod.fst ↔ contribs logs k ≠ []) ∧
    (∀ e ∈ patternTable now logs, goodEntry now logs e) := by
  induction logs using List.reverseRecOn with
  | nil =>
    refine ⟨by simp [patternTable], fun k => by simp [patternTable, contribs], ?_⟩
    simp [patternTable]
  | append_singleton logs l ih =>
    obtain ⟨ihN, ihK, ihG⟩ := ih
    have htab : patternTable now (logs ++ [l]) = processLog now (patternTable now logs) l := by
      simp [patternTable]
    by_cases hq : l._severity < 2
    · -- the record is skipped: table and every contribution list are unchanged
      have hskip : ∀ k, contribs (logs ++ [l]) k = contribs logs k := fun k =>
        contribs_append_skip logs (fun hc => absurd hc.1 (by omega))
      rw [htab]
      have hpl : processLog now (patternTable now logs) l = patternTable now logs := by
        simp [processLog, hq]
      rw [hpl]
      refine ⟨ihN, fun k => by rw [hskip k]; exact ihK k, fun e he => ?_⟩
      obtain ⟨c, cs, h1, h2⟩ := ihG e he
      exact ⟨c, cs, by rw [hskip e.fst]; exact h1, h2⟩
    · -- the record qualifies
      have hq' : 2 ≤ l._severity := by omega
      set k0 := normalizeMessage l._message with hk0
      have hkey : keyOf l = k0 := rfl
      set tbl := patternTable now logs with htbl
      set tbl1 := if (tbl.find? (fun e => e.fst == k0)).isSome then tbl
                  else tbl ++ [(k0, freshPattern now l k0)] with htbl1
      have hpl : patternTable now (logs ++ [l]) =
          tbl1.map (fun e => if e.fst == k0 then (e.fst, updatePattern l e.snd) else e) := by
        rw [htab]
        simp only [processLog, hq, if_false]
      have hkeysNew : (patternTable now (logs ++ [l])).map Prod.fst =
          (if k0 ∈ tbl.map Prod.fst then tbl.map Prod.fst else tbl.map Prod.fst ++ [k0]) := by
        rw [hpl, map_fst_upd, htbl1]
        by_cases hmem : k0 ∈ tbl.map Prod.fst
        · rw [if_pos ((find_key_isSome tbl k0).mpr hmem), if_pos hmem]
        · rw [if_neg (fun hs => hmem ((find_key_isSome tbl k0).mp hs)), if_neg hmem]
          simp
      have hcon : contribs (logs ++ [l]) k0 = contribs logs k0 ++ [l] :=
        contribs_append_qual logs hq' hkey
      have hconNe : ∀ k, k ≠ k0 → contribs (logs ++ [l]) k = contribs logs k := by
        intro k hk
        exact contribs_append_skip logs (fun hc => hk (hc.2 ▸ rfl))
      refine ⟨?_, ?_, ?_⟩
      · -- keys stay duplicate-free
        rw [hkeysNew]
        split
        · exact ihN
        · next hmem => exact List.Nodup.append ihN (by simp) (by simpa using hmem)
      · -- key membership ↔ nonempty contribution list
        intro k
        rw [hkeysNew]
        by_cases hk : k = k0
        · rw [hk]
          have hne : contribs (logs ++ [l]) k0 ≠ [] := by rw [hcon]; simp
          split
          · next hmem => simp [hmem, hne]
          · next hmem => simp [hne]
        · rw [hconNe k hk]
          have hiff := ihK k
          split
          · exact hiff
          · simpa [hk] using hiff
      · -- every entry is good
        intro e he
        rw [hpl] at he
        obtain ⟨e0, he0, heq⟩ := List.mem_map.mp he
        by_cases hfst : e0.fst = k0
        · -- the entry for the processed record's key, updated in place
          have heb : (e0.fst == k0) = true := by simpa using hfst
          have he' : e = (e0.fst, updatePattern l e0.snd) := by
            rw [← heq, if_pos heb]
          have hefst : e.fst = e0.fst := by rw [he']
          have hesnd : e.snd = updatePattern l e0.snd := by rw [he']
          by_cases hmem : k0 ∈ tbl.map Prod.fst
          · -- existing key: its contribution list is extended by `l`
            have hsome : (tbl.find? (fun e => e.fst == k0)).isSome = true :=
              (find_key_isSome tbl k0).mpr hmem
            have he0tbl : e0 ∈ tbl := by
              rw [htbl1, if_pos hsome] at he0
              exact he0
            obtain ⟨c, cs, hc1, hc2⟩ := ihG e0 he0tbl
            refine ⟨c, cs ++ [l], ?_, ?_⟩
            · rw [hefst, hfst, hcon, ← hfst, hc1]
              simp
            · rw [hesnd, hc2, updatePattern_patternOf, hefst]
              have : (c :: cs) ++ [l] = c :: (cs ++ [l]) := by simp
              rw [this]
          · -- new key: singleton contribution list
            have hnone : ¬(tbl.find? (fun e => e.fst == k0)).isSome = true :=
              fun hs => hmem ((find_key_isSome tbl k0).mp hs)
            have he0his : e0 ∈ tbl ++ [(k0, freshPattern now l k0)] := by
              rw [htbl1, if_neg hnone] at he0
              exact he0
            rcases List.mem_append.mp he0his with hin | hin
            · exact absurd (hfst ▸ List.mem_map_of_mem Prod.fst hin) hmem
            · have he0eq : e0 = (k0, freshPattern now l k0) := by simpa using hin
              have hempty : contribs logs k0 = [] := by
                by_contra hne
                exact hmem ((ihK k0).mpr hne)
              refine ⟨l, [], ?_, ?_⟩
              · rw [hefst, he0eq, hcon, hempty]
                simp
              · have hef2 : e.fst = k0 := by rw [hefst, hfst]
                rw [hesnd, he0eq, hef2]
                simpa using updatePattern_fresh now k0 l
        · -- an entry for a different key is untouched
          have heb : (e0.fst == k0) = false := by simpa using hfst
          have he' : e = e0 := by rw [← heq, if_neg (by simp [heb])]
          have he0tbl : e0 ∈ tbl := by
            rw [htbl1] at he0
            by_cases hsome : (tbl.find? (fun e => e.fst == k0)).isSome = true
            · rwa [if_pos hsome] at he0
            · rw [if_neg hsome] at he0
              rcases List.mem_append.mp he0 with hin | hin
              · exact hin
              · have he0eq2 : e0 = (k0, freshPattern now l k0) := by simpa using hin
                exact absurd (by rw [he0eq2]) hfst
          obtain ⟨c, cs, hc1, hc2⟩ := ihG e0 he0tbl
          exact ⟨c, cs, by rw [he', hconNe e0.fst hfst]; exact hc1, he' ▸ hc2⟩

/-! ## Scanner identity and decomposition lemmas -/

theorem matchFixed_drop {n : Nat} {p : Char → Bool} {s s' : Str}
    (h : matchFixed n p s = some s') : s' = s.drop n := by
  induction n generalizing s with
  | zero => simp [matchFixed] at h; simp [h]
  | succ n ih =>
    match s with
    | [] => simp [matchFixed] at h
    | c :: rest =>
      simp only [matchFixed] at h
      split at h
      · simpa using ih h
      · exact absurd h (by simp)

theorem matchChar_inv {ch : Char} {s s' : Str}
    (h : matchChar ch s = some s') : s = ch :: s' := by
  match s with
  | [] => simp [matchChar] at h
  | c :: rest =>
    simp only [matchChar] at h
    split at h
    · next hc => simp at h hc; rw [hc, h]
    · exact absurd h (by simp)

/-- A UUID-shaped match contains a dash, so a dash-free string has none. -/
theorem matchUUID_eq_none {s : Str} (h : ∀ c ∈ s, c ≠ '-') :
    matchUUID s = none := by
  cases hm : matchUUID s with
  | none => rfl
  | some r =>
    exfalso
    simp only [matchUUID, Option.bind_eq_some] at hm
    obtain ⟨s1, h1, s2, h2, _⟩ := hm
    have hs1 : s1 = s.drop 8 := matchFixed_drop h1
    have hcons : s1 = '-' :: s2 := matchChar_inv h2
    have hmem : '-' ∈ s := List.drop_subset 8 s (hs1 ▸ hcons ▸ List.mem_cons_self '-' s2)
    exact h '-' hmem rfl

/-- A timestamp-shaped match contains a dash, so a dash-free string has none. -/
theorem matchTSCore_eq_none {s : Str} (h : ∀ c ∈ s, c ≠ '-') :
    matchTSCore s = none := by
  cases hm : matchTSCore s with
  | none => rfl
  | some r =>
    exfalso
    simp only [matchTSCore, Option.bind_eq_some] at hm
    obtain ⟨s1, h1, s2, h2, _⟩ := hm
    have hs1 : s1 = s.drop 4 := matchFixed_drop h1
    have hcons : s1 = '-' :: s2 := matchChar_inv h2
    have hmem : '-' ∈ s := List.drop_subset 4 s (hs1 ▸ hcons ▸ List.mem_cons_self '-' s2)
    exact h '-' hmem rfl

/-- The UUID pass is the identity on dash-free strings, for every fuel. -/
theorem uuidPassF_id (fuel : Nat) (pw : Bool) (s : Str) (h : ∀ c ∈ s, c ≠ '-') :
    uuidPassF fuel pw s = s := by
  induction fuel generalizing pw s with
  | zero => rfl
  | succ fuel ih =>
    cases s with
    | nil => rfl
    | cons c rest =>
      have hrest : ∀ x ∈ rest, x ≠ '-' := fun x hx => h x (List.mem_cons_of_mem _ hx)
      by_cases hpw : pw <;>
        simp [uuidPassF, hpw, matchUUID_eq_none h, ih _ _ hrest]

/-- The timestamp pass is the identity on dash-free strings, for every fuel. -/
theorem tsPassF_id (fuel : Nat) (pw : Bool) (s : Str) (h : ∀ c ∈ s, c ≠ '-') :
    tsPassF fuel pw s = s := by
  induction fuel generalizing pw s with
  | zero => rfl
  | succ fuel ih =>
    cases s with
    | nil => rfl
    | cons c rest =>
      have hrest : ∀ x ∈ rest, x ≠ '-' := fun x hx => h x (List.mem_cons_of_mem _ hx)
      by_cases hpw : pw <;>
        simp [tsPassF, hpw, matchTSCore_eq_none h, ih _ _ hrest]

/-- The number pass is the identity on digit-free strings, for every fuel. -/
theorem numPassF_id (fuel : Nat) (pw : Bool) (s : Str) (h : ∀ c ∈ s, c.isDigit = false) :
    numPassF fuel pw s = s := by
  induction fuel generalizing pw s with
  | zero => rfl
  | succ fuel ih =>
    cases s with
    | nil => rfl
    | cons c rest =>
      have hrest : ∀ x ∈ rest, x.isDigit = false := fun x hx => h x (List.mem_cons_of_mem _ hx)
      simp [numPassF, h c (List.mem_cons_self c rest), ih _ _ hrest]

/-- The hex pass is the identity on strings without the character `0`,
for every fuel. -/
theorem hexPassF_id (fuel : Nat) (s : Str) (h : ∀ c ∈ s, c ≠ '0') :
    hexPassF fuel s = s := by
  induction fuel generalizing s with
  | zero => rfl
  | succ fuel ih =>
    cases s with
    | nil => rfl
    | cons c rest =>
      have hc : (c == '0') = false := by simpa using h c (List.mem_cons_self c rest)
      have hrest : ∀ x ∈ rest, x ≠ '0' := fun x hx => h x (List.mem_cons_of_mem _ hx)
      simp [hexPassF, hc, ih _ hrest]

/-- The function `trim` is the identity on strings with no whitespace characters. -/
theorem trimStr_id (s : Str) (h : ∀ c ∈ s, isSpaceChar c = false) :
    trimStr s = s := by
  have hdrop : ∀ t : Str, (∀ c ∈ t, isSpaceChar c = false) → t.dropWhile isSpaceChar = t := by
    intro t ht
    cases t with
    | nil => rfl
    | cons c r => simp [List.dropWhile, ht c (List.mem_cons_self c r)]
  unfold trimStr
  rw [hdrop s h, hdrop s.reverse (fun c hc => h c (List.mem_reverse.mp hc)), List.reverse_reverse]

/-- The function `normalizeMessage` is the identity on short strings free of dashes,
digits, the character `0`, and whitespace. -/
theorem normalizeMessage_id (s : Str) (hdash : ∀ c ∈ s, c ≠ '-')
    (hdig : ∀ c ∈ s, c.isDigit = false) (hsp : ∀ c ∈ s, isSpaceChar c = false)
    (hlen : s.length ≤ 200) :
    normalizeMessage s = s := by
  have h0 : ∀ c ∈ s, c ≠ '0' := by
    intro c hc he
    have := hdig c hc
    rw [he] at this
    simp [Char.isDigit] at this
  unfold normalizeMessage uuidPass tsPass numPass hexPass
  rw [uuidPassF_id _ _ _ hdash, tsPassF_id _ _ _ hdash, numPassF_id _ _ _ hdig,
      hexPassF_id _ _ h0, List.take_of_length_le hlen, trimStr_id _ hsp]

theorem mem_extract {now : Int} {logs : List LogEntry} {p : ErrorPattern}
    (h : p ∈ extractErrorPatterns now logs) :
    ∃ e ∈ patternTable now logs, e.snd = p := by
  unfold extractErrorPatterns at h
  have h1 := List.mem_of_mem_take h
  have h2 := (List.perm_insertionSort _ _).mem_iff.mp h1
  obtain ⟨e, he, heq⟩ := List.mem_map.mp h2
  exact ⟨e, he, heq⟩

theorem contribs_ne_nil_iff (logs : List LogEntry) (k : Str) :
    contribs logs k ≠ [] ↔
      k ∈ (logs.filter (fun l => decide (2 ≤ l._severity))).map keyOf := by
  constructor
  · intro h
    obtain ⟨l, hl⟩ := List.exists_mem_of_ne_nil _ h
    have hm := List.mem_filter.mp hl
    have hcond := hm.2
    simp only [Bool.and_eq_true, decide_eq_true_eq, beq_iff_eq] at hcond
    exact List.mem_map.mpr ⟨l, List.mem_filter.mpr ⟨hm.1, by simp [hcond.1]⟩, hcond.2⟩
  · intro h hnil
    obtain ⟨l, hlf, hlk⟩ := List.mem_map.mp h
    have hf := List.mem_filter.mp hlf
    have : l ∈ contribs logs k := by
      apply List.mem_filter.mpr
      refine ⟨hf.1, ?_⟩
      simp only [Bool.and_eq_true, beq_iff_eq]
      exact ⟨hf.2, hlk⟩
    rw [hnil] at this
    simp at this

theorem patternTable_length (now : Int) (logs : List LogEntry) :
    (patternTable now logs).length = distinctKeyCount logs := by
  obtain ⟨hN, hK, _⟩ := patternTable_spec now logs
  have h1 : (patternTable now logs).length = ((patternTable now logs).map Prod.fst).length := by
    simp
  rw [h1, ← List.toFinset_card_of_nodup hN]
  unfold distinctKeyCount
  congr 1
  ext k
  simp only [List.mem_toFinset]
  rw [hK k, contribs_ne_nil_iff]

/-! ## C9 — no pattern contains a record below Warning severity -/

/-- Claim C9. Provided record ids are unique (as they are for real ingestions,
where `id` is the row index), no pattern returned by `extractErrorPatterns`
lists the id of a record with severity < 2 in its `ids`: records below
Warning severity never contribute to any pattern. -/
theorem C9_low_severity_excluded (now : Int) (logs : List LogEntry)
    (hn : (logs.map (fun l => l._id)).Nodup) :
    ∀ p ∈ extractErrorPatterns now logs, ∀ log ∈ logs, log._severity < 2 →
      log._id ∉ p.ids := by
  intro p hp log hlog hsev hid
  obtain ⟨e, he, hesnd⟩ := mem_extract hp
  obtain ⟨c, cs, hc1, hc2⟩ := (patternTable_spec now logs).2.2 e he
  rw [← hesnd, hc2] at hid
  simp only [patternOf] at hid
  obtain ⟨l', hl'mem, hl'id⟩ := List.mem_map.mp hid
  have hl'contrib : l' ∈ contribs logs e.fst := by rw [hc1]; exact hl'mem
  obtain ⟨hl'logs, hcond⟩ := List.mem_filter.mp hl'contrib
  simp only [Bool.and_eq_true, decide_eq_true_eq] at hcond
  have heq : log = l' :=
    List.inj_on_of_nodup_map hn hlog hl'logs (by rw [hl'id])
  rw [heq] at hsev
  omega

/-- Witness for C9: a two-record input (one Info record, one Error record)
with distinct ids, where the Info record's id appears in no pattern. -/
theorem C9_low_severity_excluded_witness :
    (([⟨0, none, 1, ['i'], []⟩, ⟨1, none, 3, ['e'], []⟩] : List LogEntry).map
      (fun l => l._id)).Nodup ∧
    ∀ p ∈ extractErrorPatterns 0
      [⟨0, none, 1, ['i'], []⟩, ⟨1, none, 3, ['e'], []⟩],
      ∀ log ∈ ([⟨0, none, 1, ['i'], []⟩, ⟨1, none, 3, ['e'], []⟩] : List LogEntry),
        log._severity < 2 → log._id ∉ p.ids :=
  ⟨by decide, C9_low_severity_excluded 0 _ (by decide)⟩

/-! ## C4 — the 100-pattern cap and count-descending order -/

/-- Claim C4. For every input with more than 100 distinct canonical keys among
its severity-≥2 records, `extractErrorPatterns` returns exactly 100 patterns,
sorted by `count` in descending order. -/
theorem C4_pattern_cap (now : Int) (logs : List LogEntry)
    (h : 100 < distinctKeyCount logs) :
    (extractErrorPatterns now logs).length = 100 ∧
    (extractErrorPatterns now logs).Pairwise (fun a b => b.count ≤ a.count) := by
  constructor
  · unfold extractErrorPatterns
    rw [List.length_take]
    have hlen : (List.insertionSort (fun a b => countLe a b = true)
        ((patternTable now logs).map Prod.snd)).length = (patternTable now logs).length := by
      rw [(List.perm_insertionSort _ _).length_eq]
      simp
    rw [hlen, patternTable_length]
    omega
  · have hs := List.sorted_insertionSort (fun a b : ErrorPattern => countLe a b = true)
      ((patternTable now logs).map Prod.snd)
    have hp := List.Pairwise.sublist (List.take_sublist 100 _) hs
    exact hp.imp (fun h => by simpa [countLe] using h)

theorem capLogs_keys :
    (capLogs.filter (fun l => decide (2 ≤ l._severity))).map keyOf
      = (List.range 101).map (fun i => List.replicate i 'a') := by
  have hfilter : capLogs.filter (fun l => decide (2 ≤ l._severity)) = capLogs := by
    apply List.filter_eq_self.mpr
    intro l hl
    obtain ⟨i, _, rfl⟩ := List.mem_map.mp hl
    simp
  rw [hfilter]
  unfold capLogs
  rw [List.map_map]
  apply List.map_congr_left
  intro i hi
  have hi' : i < 101 := List.mem_range.mp hi
  show keyOf ⟨i, none, 3, List.replicate i 'a', []⟩ = List.replicate i 'a'
  unfold keyOf
  apply normalizeMessage_id <;> try (intro c hc; rw [List.eq_of_mem_replicate hc])
  · decide
  · decide
  · decide
  · simpa using by omega

theorem capLogs_distinct : 100 < distinctKeyCount capLogs := by
  unfold distinctKeyCount
  rw [capLogs_keys]
  have hnodup : ((List.range 101).map (fun i => List.replicate i 'a')).Nodup := by
    apply List.Nodup.map _ (List.nodup_range 101)
    intro i j hij
    have := congrArg List.length hij
    simpa using this
  rw [List.toFinset_card_of_nodup hnodup]
  simp

/-- Witness for C4: on 101 records with distinct canonical keys, the result
has exactly 100 patterns, sorted by count descending. -/
theorem C4_pattern_cap_witness :
    100 < distinctKeyCount capLogs ∧
    (extractErrorPatterns 0 capLogs).length = 100 ∧
    (extractErrorPatterns 0 capLogs).Pairwise (fun a b => b.count ≤ a.count) :=
  ⟨capLogs_distinct, C4_pattern_cap 0 capLogs capLogs_distinct⟩

/-! ## C2 — firstSeen/lastSeen semantics -/

/-- Claim C2, counterexample.  The claim says that when at least one
contributing record has a timestamp, `firstSeen`/`lastSeen` are the min/max
of the contributing records' timestamps.  With aggregation instant 100 and
two Warning records for one key — the first without a timestamp, the second
with timestamp 5 — the only contributing timestamp is 5, yet the pattern has
`lastSeen = 100` (the creation instant leaks into the max), not 5. -/
theorem C2_counterexample :
    (extractErrorPatterns 100 [⟨0, none, 2, ['m'], []⟩, ⟨1, some 5, 2, ['m'], []⟩]).map
        (fun p => (p.firstSeen, p.lastSeen)) = [(5, 100)] ∧
    knownTs (contribs [⟨0, none, 2, ['m'], []⟩, ⟨1, some 5, 2, ['m'], []⟩] ['m']) = [5] ∧
    (100 : Int) ≠ 5 :=
  ⟨by decide, by decide, by decide⟩

/-- Claim C2, amended.  For every pattern produced by `extractErrorPatterns`,
`firstSeen`/`lastSeen` are the min/max over the known timestamps of the
contributing records *together with the initialisation value*, which is the
first contributing record's timestamp when known and otherwise the
aggregation's creation instant.  (Hence the claim's min/max-of-timestamps
reading holds whenever the first contributing record has a timestamp, but
when it does not, the creation instant also enters the min/max.) -/
theorem C2_first_last_seen (now : Int) (logs : List LogEntry) :
    ∀ p ∈ extractErrorPatterns now logs,
      ∃ c cs, contribs logs p.normalized = c :: cs ∧
        p.firstSeen = (knownTs (c :: cs)).foldl min (c._timestamp.getD now) ∧
        p.lastSeen = (knownTs (c :: cs)).foldl max (c._timestamp.getD now) := by
  intro p hp
  obtain ⟨e, he, hesnd⟩ := mem_extract hp
  obtain ⟨c, cs, hc1, hc2⟩ := (patternTable_spec now logs).2.2 e he
  have hnorm : p.normalized = e.fst := by rw [← hesnd, hc2]; rfl
  refine ⟨c, cs, by rw [hnorm]; exact hc1, ?_, ?_⟩
  · rw [← hesnd, hc2]; rfl
  · rw [← hesnd, hc2]; rfl

/-- Witness for C2 (amended), at a single Error record with timestamp 7 and
the concrete pattern it produces. -/
theorem C2_first_last_seen_witness :
    (⟨['m'], ['m'], 1, 7, 7, [0], 3, 1, 0⟩ : ErrorPattern) ∈
        extractErrorPatterns 0 [⟨0, some 7, 3, ['m'], []⟩] ∧
    ∃ c cs, contribs [⟨0, some 7, 3, ['m'], []⟩]
        (⟨['m'], ['m'], 1, 7, 7, [0], 3, 1, 0⟩ : ErrorPattern).normalized = c :: cs ∧
      (⟨['m'], ['m'], 1, 7, 7, [0], 3, 1, 0⟩ : ErrorPattern).firstSeen
          = (knownTs (c :: cs)).foldl min (c._timestamp.getD 0) ∧
      (⟨['m'], ['m'], 1, 7, 7, [0], 3, 1, 0⟩ : ErrorPattern).lastSeen
          = (knownTs (c :: cs)).foldl max (c._timestamp.getD 0) :=
  ⟨by decide, C2_first_last_seen 0 [⟨0, some 7, 3, ['m'], []⟩] _ (by decide)⟩

/-! ## C1 — severity 4 and the error-class tally -/

/-- Claim C1.  The claim (following the spec's prescription) says a severity-4
record increments `errorCount`, so a pattern of only severity-4 records has
dominant severity 3.  Evaluating `extractErrorPatterns` at a single
severity-4 record shows the code increments neither tally: the pattern has
`count = 1` but `errorCount = 0`, `warningCount = 0`, and dominant
severity 2 — a Critical-only pattern is classified as Warning-class. -/
theorem C1_severity4_not_error_class :
    (extractErrorPatterns 0 [⟨0, none, 4, ['b'], []⟩]).map
      (fun p => (p.count, p.errorCount, p.warningCount, p.severity)) = [(1, 0, 0, 2)] ∧
    ¬((0 : Nat) = 1 ∧ (2 : Int) = 3) :=
  ⟨by decide, by decide⟩

theorem mem_sideKeys (logs : List LogEntry) (k : Str) :
    k ∈ sideKeys logs ↔ contribs logs k ≠ [] :=
  (contribs_ne_nil_iff logs k).symm

theorem diffStep_keys (st : List (Str × DiffCount) × List (Str × Str))
    (l : LogEntry) (k : Str) :
    k ∈ ((diffStep st l).1).map Prod.fst ↔
      (k ∈ (st.1).map Prod.fst ∨ (2 ≤ l._severity ∧ keyOf l = k)) := by
  unfold diffStep
  by_cases hq : l._severity < 2
  · have : ¬2 ≤ l._severity := by omega
    simp [hq, this]
  · simp only [hq, if_false]
    have hq2 : 2 ≤ l._severity := by omega
    by_cases hmem : (lookupKey st.1 (normalizeMessage l._message)).isSome = true
    · rw [if_pos hmem, map_fst_congr]
      · have hk2 : normalizeMessage l._message ∈ (st.1).map Prod.fst :=
          (lookupKey_isSome _ _).mp hmem
        constructor
        · exact Or.inl
        · rintro (h | ⟨_, hk⟩)
          · exact h
          · rw [← hk]; exact hk2
      · intro e
        by_cases h : e.fst == normalizeMessage l._message <;> simp [h]
    · rw [if_neg hmem, map_fst_congr]
      · simp only [List.map_append, List.map_cons, List.map_nil, List.mem_append,
          List.mem_cons, List.not_mem_nil, or_false]
        constructor
        · rintro (h | hk)
          · exact Or.inl h
          · exact Or.inr ⟨hq2, hk.symm⟩
        · rintro (h | ⟨_, hk⟩)
          · exact Or.inl h
          · exact Or.inr hk.symm
      · intro e
        by_cases h : e.fst == normalizeMessage l._message <;> simp [h]

theorem contribs_cons_ne (l : LogEntry) (ls : List LogEntry) (k : Str) :
    contribs (l :: ls) k ≠ [] ↔
      ((2 ≤ l._severity ∧ keyOf l = k) ∨ contribs ls k ≠ []) := by
  by_cases hp : (decide (2 ≤ l._severity) && (keyOf l == k)) = true
  · have hp' : 2 ≤ l._severity ∧ keyOf l = k := by simpa using hp
    simp [contribs, List.filter_cons, hp, hp']
  · have hp' : ¬(2 ≤ l._severity ∧ keyOf l = k) := by simpa using hp
    simp only [contribs, List.filter_cons, hp, if_false, Bool.false_eq_true]
    constructor
    · intro h; exact Or.inr h
    · rintro (h | h)
      · exact absurd h hp'
      · exact h

theorem diffFold_keys (logs : List LogEntry)
    (st : List (Str × DiffCount) × List (Str × Str)) (k : Str) :
    k ∈ ((logs.foldl diffStep st).1).map Prod.fst ↔
      (k ∈ (st.1).map Prod.fst ∨ contribs logs k ≠ []) := by
  induction logs generalizing st with
  | nil => simp [contribs]
  | cons l ls ih =>
    rw [List.foldl_cons, ih, diffStep_keys, contribs_cons_ne]
    tauto

theorem mem_file1Only_iff (now : Int) (logs1 logs2 : List LogEntry) (k : Str) :
    k ∈ (compareFiles now logs1 logs2).file1Only.map (fun p => p.normalized) ↔
      (contribs logs1 k ≠ [] ∧ contribs logs2 k = []) := by
  unfold compareFiles
  simp only [List.mem_map]
  constructor
  · rintro ⟨p, hp, rfl⟩
    have hp' := (List.perm_insertionSort _ _).mem_iff.mp hp
    obtain ⟨e, he, rfl⟩ := List.mem_map.mp hp'
    obtain ⟨he1, hq⟩ := List.mem_filter.mp he
    have hk1 : e.fst ∈ ((logs1.foldl diffStep ([], [])).1).map Prod.fst :=
      List.mem_map_of_mem Prod.fst he1
    have hne1 : contribs logs1 e.fst ≠ [] := by
      have := (diffFold_keys logs1 ([], []) e.fst).mp hk1
      simpa using this
    have hn2 : e.fst ∉ ((logs2.foldl diffStep
        ([], (logs1.foldl diffStep ([], [])).2)).1).map Prod.fst :=
      (lookupKey_isNone _ _).mp hq
    have hne2 : contribs logs2 e.fst = [] := by
      rw [diffFold_keys logs2 ([], (logs1.foldl diffStep ([], [])).2) e.fst] at hn2
      simpa using (not_or.mp hn2).2
    exact ⟨hne1, hne2⟩
  · rintro ⟨h1, h2⟩
    have hk1 : k ∈ ((logs1.foldl diffStep ([], [])).1).map Prod.fst := by
      rw [diffFold_keys]; exact Or.inr h1
    obtain ⟨e, he1, hef⟩ := List.mem_map.mp hk1
    have hq : ((lookupKey (logs2.foldl diffStep
        ([], (logs1.foldl diffStep ([], [])).2)).1 e.fst).isNone) = true := by
      rw [lookupKey_isNone, diffFold_keys]
      rw [hef]
      simp [h2]
    refine ⟨onlyPattern now ((logs2.foldl diffStep
        ([], (logs1.foldl diffStep ([], [])).2)).2) e.fst e.snd, ?_, hef⟩
    apply (List.perm_insertionSort _ _).mem_iff.mpr
    exact List.mem_map_of_mem _ (List.mem_filter.mpr ⟨he1, hq⟩)

theorem mem_file2Only_iff (now : Int) (logs1 logs2 : List LogEntry) (k : Str) :
    k ∈ (compareFiles now logs1 logs2).file2Only.map (fun p => p.normalized) ↔
      (contribs logs2 k ≠ [] ∧ contribs logs1 k = []) := by
  unfold compareFiles
  simp only [List.mem_map]
  constructor
  · rintro ⟨p, hp, rfl⟩
    have hp' := (List.perm_insertionSort _ _).mem_iff.mp hp
    obtain ⟨e, he, rfl⟩ := List.mem_map.mp hp'
    obtain ⟨he2, hq⟩ := List.mem_filter.mp he
    have hk2 : e.fst ∈ ((logs2.foldl diffStep
        ([], (logs1.foldl diffStep ([], [])).2)).1).map Prod.fst :=
      List.mem_map_of_mem Prod.fst he2
    have hne2 : contribs logs2 e.fst ≠ [] := by
      have := (diffFold_keys logs2 _ e.fst).mp hk2
      simpa using this
    have hn1 : e.fst ∉ ((logs1.foldl diffStep ([], [])).1).map Prod.fst :=
      (lookupKey_isNone _ _).mp hq
    have hne1 : contribs logs1 e.fst = [] := by
      rw [diffFold_keys] at hn1
      simpa using not_or.mp hn1 |>.2
    exact ⟨hne2, hne1⟩
  · rintro ⟨h2, h1⟩
    have hk2 : k ∈ ((logs2.foldl diffStep
        ([], (logs1.foldl diffStep ([], [])).2)).1).map Prod.fst := by
      rw [diffFold_keys]; exact Or.inr h2
    obtain ⟨e, he2, hef⟩ := List.mem_map.mp hk2
    have hq : ((lookupKey (logs1.foldl diffStep ([], [])).1 e.fst).isNone) = true := by
      rw [lookupKey_isNone, diffFold_keys]
      rw [hef]
      simp [h1]
    refine ⟨onlyPattern now ((logs2.foldl diffStep
        ([], (logs1.foldl diffStep ([], [])).2)).2) e.fst e.snd, ?_, hef⟩
    apply (List.perm_insertionSort _ _).mem_iff.mpr
    exact List.mem_map_of_mem _ (List.mem_filter.mpr ⟨he2, hq⟩)

theorem mem_bothFiles_iff (now : Int) (logs1 logs2 : List LogEntry) (k : Str) :
    k ∈ (compareFiles now logs1 logs2).bothFiles.map (fun b => b.pattern.normalized) ↔
      (contribs logs2 k ≠ [] ∧ contribs logs1 k ≠ []) := by
  unfold compareFiles
  simp only [List.mem_map]
  constructor
  · rintro ⟨b, hb, rfl⟩
    have hb' := (List.perm_insertionSort _ _).mem_iff.mp hb
    obtain ⟨e, he2, hfe⟩ := List.mem_filterMap.mp hb'
    cases hlk : lookupKey (logs1.foldl diffStep ([], [])).1 e.fst with
    | none => rw [hlk] at hfe; simp at hfe
    | some d =>
      rw [hlk] at hfe
      simp only [Option.some_inj] at hfe
      have hnorm : b.pattern.normalized = e.fst := by rw [← hfe]
      rw [hnorm]
      have hk2 : e.fst ∈ ((logs2.foldl diffStep
          ([], (logs1.foldl diffStep ([], [])).2)).1).map Prod.fst :=
        List.mem_map_of_mem Prod.fst he2
      have hne2 : contribs logs2 e.fst ≠ [] := by
        have := (diffFold_keys logs2 _ e.fst).mp hk2
        simpa using this
      have hk1 : e.fst ∈ ((logs1.foldl diffStep ([], [])).1).map Prod.fst := by
        rw [← lookupKey_isSome]
        rw [hlk]
        rfl
      have hne1 : contribs logs1 e.fst ≠ [] := by
        have := (diffFold_keys logs1 ([], []) e.fst).mp hk1
        simpa using this
      exact ⟨hne2, hne1⟩
  · rintro ⟨h2, h1⟩
    have hk2 : k ∈ ((logs2.foldl diffStep
        ([], (logs1.foldl diffStep ([], [])).2)).1).map Prod.fst := by
      rw [diffFold_keys]; exact Or.inr h2
    obtain ⟨e, he2, hef⟩ := List.mem_map.mp hk2
    have hk1 : (lookupKey (logs1.foldl diffStep ([], [])).1 e.fst).isSome = true := by
      rw [lookupKey_isSome, diffFold_keys, hef]
      exact Or.inr h1
    cases hlk : lookupKey (logs1.foldl diffStep ([], [])).1 e.fst with
    | none => rw [hlk] at hk1; simp at hk1
    | some d =>
      refine ⟨⟨⟨displayMessage ((logs2.foldl diffStep
              ([], (logs1.foldl diffStep ([], [])).2)).2) e.fst, e.fst,
            e.snd.count, now, now, e.snd.ids, 3, e.snd.count, 0⟩,
          d.count, e.snd.count,
          (((e.snd.count : Int) - (d.count : Int) : Int) : Rat) / (d.count : Rat) * 100⟩,
        ?_, hef⟩
      apply (List.perm_insertionSort _ _).mem_iff.mpr
      apply List.mem_filterMap.mpr
      exact ⟨e, he2, by rw [hlk]⟩

/-- Claim C5. The function `compareFiles` partitions the canonical keys: a key derived from
a severity-≥2 record of either side lands in exactly one of
{baseline-only, candidate-only, both}; the three partitions are pairwise
disjoint and their union is exactly the union of both sides' key sets. -/
theorem C5_diff_partition (now : Int) (logs1 logs2 : List LogEntry) (k : Str) :
    ((k ∈ (compareFiles now logs1 logs2).file1Only.map (fun p => p.normalized) ∨
      k ∈ (compareFiles now logs1 logs2).file2Only.map (fun p => p.normalized) ∨
      k ∈ (compareFiles now logs1 logs2).bothFiles.map (fun b => b.pattern.normalized)) ↔
      (k ∈ sideKeys logs1 ∨ k ∈ sideKeys logs2)) ∧
    ¬(k ∈ (compareFiles now logs1 logs2).file1Only.map (fun p => p.normalized) ∧
      k ∈ (compareFiles now logs1 logs2).file2Only.map (fun p => p.normalized)) ∧
    ¬(k ∈ (compareFiles now logs1 logs2).file1Only.map (fun p => p.normalized) ∧
      k ∈ (compareFiles now logs1 logs2).bothFiles.map (fun b => b.pattern.normalized)) ∧
    ¬(k ∈ (compareFiles now logs1 logs2).file2Only.map (fun p => p.normalized) ∧
      k ∈ (compareFiles now logs1 logs2).bothFiles.map (fun b => b.pattern.normalized)) := by
  rw [mem_file1Only_iff, mem_file2Only_iff, mem_bothFiles_iff, mem_sideKeys, mem_sideKeys]
  tauto

/-- Witness for C5 at a concrete pair of inputs and key. -/
theorem C5_diff_partition_witness :
    ((['m'] ∈ (compareFiles 0 [⟨0, none, 3, ['m'], []⟩] []).file1Only.map
        (fun p => p.normalized) ∨
      ['m'] ∈ (compareFiles 0 [⟨0, none, 3, ['m'], []⟩] []).file2Only.map
        (fun p => p.normalized) ∨
      ['m'] ∈ (compareFiles 0 [⟨0, none, 3, ['m'], []⟩] []).bothFiles.map
        (fun b => b.pattern.normalized)) ↔
      (['m'] ∈ sideKeys [⟨0, none, 3, ['m'], []⟩] ∨ ['m'] ∈ sideKeys [])) ∧
    ¬(['m'] ∈ (compareFiles 0 [⟨0, none, 3, ['m'], []⟩] []).file1Only.map
        (fun p => p.normalized) ∧
      ['m'] ∈ (compareFiles 0 [⟨0, none, 3, ['m'], []⟩] []).file2Only.map
        (fun p => p.normalized)) ∧
    ¬(['m'] ∈ (compareFiles 0 [⟨0, none, 3, ['m'], []⟩] []).file1Only.map
        (fun p => p.normalized) ∧
      ['m'] ∈ (compareFiles 0 [⟨0, none, 3, ['m'], []⟩] []).bothFiles.map
        (fun b => b.pattern.normalized)) ∧
    ¬(['m'] ∈ (compareFiles 0 [⟨0, none, 3, ['m'], []⟩] []).file2Only.map
        (fun p => p.normalized) ∧
      ['m'] ∈ (compareFiles 0 [⟨0, none, 3, ['m'], []⟩] []).bothFiles.map
        (fun b => b.pattern.normalized)) :=
  C5_diff_partition 0 [⟨0, none, 3, ['m'], []⟩] [] ['m']

theorem buildLogs_mem (parseTs : Str → Option Int) (m : ColumnMapping) :
    ∀ (i : Nat) (rows : List Row) (l : LogEntry),
      l ∈ buildLogs parseTs m i rows →
      ∃ j r, rows.get? j = some r ∧ l = buildLog parseTs m (i + j) r := by
  intro i rows
  induction rows generalizing i with
  | nil => intro l hl; simp [buildLogs] at hl
  | cons r rs ih =>
    intro l hl
    rcases List.mem_cons.mp hl with rfl | h
    · exact ⟨0, r, rfl, by simp⟩
    · obtain ⟨j, r', hj, hb⟩ := ih (i + 1) l h
      refine ⟨j + 1, r', by simpa using hj, ?_⟩
      rw [hb]
      congr 1
      omega

/-- Claim C10.  The record list delivered by a successful ingestion is ordered
by the sort comparator — timestamped records newest-first, and every record
without a timestamp after every record with one (`tsLe` encodes exactly the
source comparator) — while each delivered record is still the one built from
the input row at index `id`: ids remain the original 0-based row indices. -/
theorem C10_ingestion_order (parseTs : Str → Option Int) (columns : List Str)
    (rows : List Row) :
    (parseCSVLogs parseTs columns rows).Pairwise (fun a b => tsLe a b = true) ∧
    ∀ l ∈ parseCSVLogs parseTs columns rows,
      ∃ r, rows.get? l._id = some r ∧
        l = buildLog parseTs (detectColumnMapping columns) l._id r := by
  constructor
  · exact List.sorted_insertionSort _ _
  · intro l hl
    have hl' := (List.perm_insertionSort _ _).mem_iff.mp hl
    obtain ⟨j, r, hj, hb⟩ := buildLogs_mem parseTs (detectColumnMapping columns) 0 rows l hl'
    rw [Nat.zero_add] at hb
    have hid : l._id = j := by rw [hb]; rfl
    refine ⟨r, ?_, ?_⟩
    · rw [hid]; exact hj
    · rw [hid]; exact hb

/-- Witness for C10 at a concrete three-row input (timestamps 10, 20, none). -/
theorem C10_ingestion_order_witness :
    (parseCSVLogs
        (fun s => if s = ['a'] then some 10 else if s = ['b'] then some 20 else none)
        ["timestamp".toList]
        [[("timestamp".toList, ['a'])], [("timestamp".toList, ['b'])],
         [("timestamp".toList, [])]]).Pairwise (fun a b => tsLe a b = true) ∧
    ∀ l ∈ parseCSVLogs
        (fun s => if s = ['a'] then some 10 else if s = ['b'] then some 20 else none)
        ["timestamp".toList]
        [[("timestamp".toList, ['a'])], [("timestamp".toList, ['b'])],
         [("timestamp".toList, [])]],
      ∃ r, [[("timestamp".toList, ['a'])], [("timestamp".toList, ['b'])],
            [("timestamp".toList, [])]].get? l._id = some r ∧
        l = buildLog
          (fun s => if s = ['a'] then some 10 else if s = ['b'] then some 20 else none)
          (detectColumnMapping ["timestamp".toList]) l._id r :=
  C10_ingestion_order _ _ _

/-- Claim C6, counterexample.  The strings `"2024-01-02T03:04:05"` and
`"2024-01-02T03:04:5"` differ only in digit runs (the seconds run `05`
vs `5`; every slot in the common decomposition is a maximal digit run
flanked by non-word characters), yet they canonicalize differently: the
first matches the ISO-timestamp shape and becomes `<TIMESTAMP>`, while in
the second the digit-run substitution destroys that shape, leaving a mix of
`<NUM>` tokens and literals. -/
theorem C6_counterexample :
    DiffOnly
      ['2','0','2','4','-','0','1','-','0','2','T','0','3',':','0','4',':','0','5']
      ['2','0','2','4','-','0','1','-','0','2','T','0','3',':','0','4',':','5'] ∧
    normalizeMessage
        ['2','0','2','4','-','0','1','-','0','2','T','0','3',':','0','4',':','0','5'] ≠
      normalizeMessage
        ['2','0','2','4','-','0','1','-','0','2','T','0','3',':','0','4',':','5'] := by
  constructor
  · have d2024 : volOk .digitRun ['2','0','2','4'] := ⟨by decide, by decide⟩
    have d01 : volOk .digitRun ['0','1'] := ⟨by decide, by decide⟩
    have d02 : volOk .digitRun ['0','2'] := ⟨by decide, by decide⟩
    have d03 : volOk .digitRun ['0','3'] := ⟨by decide, by decide⟩
    have d04 : volOk .digitRun ['0','4'] := ⟨by decide, by decide⟩
    have d05 : volOk .digitRun ['0','5'] := ⟨by decide, by decide⟩
    have d5 : volOk .digitRun ['5'] := ⟨by decide, by decide⟩
    exact DiffOnly.vol .digitRun d2024 d2024 (DiffOnly.lit '-'
      (DiffOnly.vol .digitRun d01 d01 (DiffOnly.lit '-'
        (DiffOnly.vol .digitRun d02 d02 (DiffOnly.lit 'T'
          (DiffOnly.vol .digitRun d03 d03 (DiffOnly.lit ':'
            (DiffOnly.vol .digitRun d04 d04 (DiffOnly.lit ':'
              (DiffOnly.vol .digitRun d05 d5 DiffOnly.nil))))))))))
  · decide

theorem digit_isWordChar {c : Char} (h : c.isDigit = true) : isWordChar c = true := by
  simp [isWordChar, Char.isAlphanum, h]

theorem dropWhile_append_all {p : Char → Bool} {xs : Str} (ys : Str)
    (h : ∀ x ∈ xs, p x = true) :
    (xs ++ ys).dropWhile p = ys.dropWhile p := by
  induction xs with
  | nil => simp
  | cons x xs ih =>
    simp only [List.cons_append, List.dropWhile_cons, h x (List.mem_cons_self x xs), if_true]
    exact ih (fun a ha => h a (List.mem_cons_of_mem _ ha))

theorem dropWhile_head_false {p : Char → Bool} {ys : Str}
    (h : ∀ c, ys.head? = some c → p c = false) :
    ys.dropWhile p = ys := by
  cases ys with
  | nil => rfl
  | cons c rest => simp [List.dropWhile_cons, h c rfl]

/-- The scanner `numPassF` does not depend on the fuel, provided it covers the string. -/
theorem numPassF_fuel (fuel1 fuel2 : Nat) (pw : Bool) (s : Str)
    (h1 : s.length ≤ fuel1) (h2 : s.length ≤ fuel2) :
    numPassF fuel1 pw s = numPassF fuel2 pw s := by
  induction fuel1 generalizing fuel2 pw s with
  | zero =>
    have hs : s = [] := by
      cases s with
      | nil => rfl
      | cons c rest => simp at h1
    subst hs
    cases fuel2 <;> rfl
  | succ f1 ih =>
    cases s with
    | nil => cases fuel2 <;> rfl
    | cons c rest =>
      cases fuel2 with
      | zero => simp at h2
      | succ f2 =>
        have hr1 : rest.length ≤ f1 := by simp at h1; omega
        have hr2 : rest.length ≤ f2 := by simp at h2; omega
        have hd1 : (rest.dropWhile Char.isDigit).length ≤ f1 :=
          le_trans (dropWhile_length_le _ _) hr1
        have hd2 : (rest.dropWhile Char.isDigit).length ≤ f2 :=
          le_trans (dropWhile_length_le _ _) hr2
        simp only [numPassF]
        by_cases hd : (c.isDigit && !pw) = true
        · rw [if_pos hd, if_pos hd]
          by_cases hb : numBoundary (rest.dropWhile Char.isDigit) = true
          · rw [if_pos hb, if_pos hb, ih f2 true _ hd1 hd2]
          · rw [if_neg hb, if_neg hb, ih f2 true rest hr1 hr2]
        · rw [if_neg hd, if_neg hd, ih f2 (isWordChar c) rest hr1 hr2]

/-- The number pass copies a digit-free chunk verbatim and continues with
the word-character state of the chunk's last character. -/
theorem numPassF_lit (l : Str) (hl : ∀ c ∈ l, c.isDigit = false) :
    ∀ (fuel : Nat) (pw : Bool) (rest : Str), (l ++ rest).length ≤ fuel →
      numPassF fuel pw (l ++ rest) = l ++ numPassF rest.length (lastWord l pw) rest := by
  induction l with
  | nil =>
    intro fuel pw rest h
    simp only [List.nil_append, lastWord, List.getLast?_nil]
    exact numPassF_fuel fuel rest.length pw rest (by simpa using h) le_rfl
  | cons c l' ih =>
    intro fuel pw rest h
    cases fuel with
    | zero => simp at h
    | succ f =>
      have hc : c.isDigit = false := hl c (List.mem_cons_self c l')
      have hlw : lastWord (c :: l') pw = lastWord l' (isWordChar c) := by
        cases l' with
        | nil => simp [lastWord]
        | cons x xs =>
          unfold lastWord
          rw [List.getLast?_cons_cons]
          cases hgl : (x :: xs).getLast? with
          | none => exact absurd (List.getLast?_eq_none_iff.mp hgl) (by simp)
          | some c2 => rfl
      simp only [List.cons_append, numPassF]
      rw [if_neg (by simp [hc])]
      simp only [List.append_eq]
      rw [ih (fun a ha => hl a (List.mem_cons_of_mem _ ha)) f (isWordChar c) rest
        (by simp at h ⊢; omega)]
      rw [hlw]

/-- The number pass replaces a maximal digit run flanked by word boundaries
with `<NUM>`. -/
theorem numPassF_run (d : Str) (hne : d ≠ []) (hd : ∀ c ∈ d, c.isDigit = true)
    (rest : Str) (hrest : ∀ c, rest.head? = some c → isWordChar c = false)
    (fuel : Nat) (h : (d ++ rest).length ≤ fuel) :
    numPassF fuel false (d ++ rest) = numTok ++ numPassF rest.length true rest := by
  cases d with
  | nil => exact absurd rfl hne
  | cons c ds =>
    cases fuel with
    | zero => simp at h
    | succ f =>
      have hc : c.isDigit = true := hd c (List.mem_cons_self c ds)
      have hdrop : (ds ++ rest).dropWhile Char.isDigit = rest := by
        rw [dropWhile_append_all rest (fun a ha => hd a (List.mem_cons_of_mem _ ha))]
        exact dropWhile_head_false
          (fun x hx => by
            have hw := hrest x hx
            cases hdig : x.isDigit with
            | false => rfl
            | true => rw [digit_isWordChar hdig] at hw; exact absurd hw (by simp))
      have hbound : numBoundary rest = true := by
        cases rest with
        | nil => rfl
        | cons x rs => simpa [numBoundary] using hrest x rfl
      simp only [List.cons_append, numPassF]
      simp only [List.append_eq]
      rw [if_pos (by simp [hc]), hdrop, if_pos hbound]
      have hlen : rest.length ≤ f := by simp at h; omega
      rw [numPassF_fuel f rest.length true rest hlen le_rfl]

theorem litOkB_spec {l : Str} (h : litOkB l = true) :
    ∀ c ∈ l, c.isDigit = false ∧ c ≠ '-' ∧ c ≠ 'x' ∧ c ≠ 'X' := by
  intro c hc
  have := List.all_eq_true.mp h c hc
  simp only [Bool.and_eq_true, Bool.not_eq_true', bne_iff_ne, ne_eq] at this
  exact ⟨this.1.1.1, this.1.1.2, this.1.2, this.2⟩

/-- Every rendered instantiation of a sanitised template is dash-free. -/
theorem renderF_no_dash :
    ∀ (ps : List (Str × Str)) (t : Str) (flag : Bool),
      pairsOkB flag ps t = true → ∀ c ∈ renderF ps t, c ≠ '-' := by
  intro ps
  induction ps with
  | nil =>
    intro t flag h c hc
    exact ((litOkB_spec h) c hc).2.1
  | cons p rest ih =>
    intro t flag h c hc
    obtain ⟨l, d⟩ := p
    simp only [pairsOkB, Bool.and_eq_true] at h
    obtain ⟨⟨⟨⟨⟨hlit, _⟩, _⟩, hdig⟩, _⟩, hrest⟩ := h
    simp only [renderF, List.mem_append] at hc
    rcases hc with hc | hc | hc
    · exact ((litOkB_spec hlit) c hc).2.1
    · have := List.all_eq_true.mp hdig c hc
      intro he
      rw [he] at this
      simp [Char.isDigit] at this
    · exact ih t false hrest c hc

/-- The number pass sends any instantiation of a sanitised template to the
template's canonical form, independent of the digit runs. -/
theorem numPassF_renderF :
    ∀ (ps : List (Str × Str)) (t : Str) (flag pw : Bool) (fuel : Nat),
      pairsOkB flag ps t = true → (flag = true → pw = false) →
      (flag = false → pw = true) →
      (renderF ps t).length ≤ fuel →
      numPassF fuel pw (renderF ps t) = renderTokL (ps.map Prod.fst) t := by
  intro ps
  induction ps with
  | nil =>
    intro t flag pw fuel h _ _ _
    simp only [renderF, List.map_nil, renderTokL]
    exact numPassF_id fuel pw t (fun c hc => ((litOkB_spec h) c hc).1)
  | cons p rest ih =>
    intro t flag pw fuel h hpw1 hpw2 hlen
    obtain ⟨l, d⟩ := p
    simp only [pairsOkB, Bool.and_eq_true] at h
    obtain ⟨⟨⟨⟨⟨hlit, hlast⟩, hdne⟩, hdig⟩, hhead⟩, hrest⟩ := h
    simp only [renderF] at hlen ⊢
    rw [numPassF_lit l (fun c hc => ((litOkB_spec hlit) c hc).1) fuel pw
      (d ++ renderF rest t) hlen]
    have hlw : lastWord l pw = false := by
      unfold lastWord
      unfold lastNonWordB at hlast
      cases hgl : l.getLast? with
      | none =>
        rw [hgl] at hlast
        cases flag with
        | false =>
          cases pw with
          | false => rfl
          | true => exact absurd hlast (by simp)
        | true => exact hpw1 rfl
      | some c =>
        rw [hgl] at hlast
        simpa using hlast
    rw [hlw]
    have hheadrest : ∀ c, (renderF rest t).head? = some c → isWordChar c = false := by
      intro c hc
      cases rest with
      | nil =>
        simp only [renderF] at hc
        unfold pairsHeadOkB at hhead
        have hhead' : t.isEmpty = true ∨ (match t.head? with
            | some c => !isWordChar c
            | none => true) = true := by
          rw [← Bool.or_eq_true]
          exact hhead
        rcases hhead' with he | hw
        · rw [List.isEmpty_iff.mp he] at hc
          simp at hc
        · rw [hc] at hw
          simpa using hw
      | cons q rest' =>
        obtain ⟨l', d'⟩ := q
        unfold pairsHeadOkB at hhead
        have hhead' : (!l'.isEmpty) = true ∧ (match l'.head? with
            | some c => !isWordChar c
            | none => true) = true := by
          rw [← Bool.and_eq_true]
          exact hhead
        obtain ⟨hne', hw⟩ := hhead'
        have hl'ne : l' ≠ [] := by simpa using hne'
        simp only [renderF] at hc
        cases l' with
        | nil => exact absurd rfl hl'ne
        | cons c0 l'' =>
          simp only [List.cons_append, List.head?_cons, Option.some_inj] at hc
          rw [← hc]
          simpa using hw
    rw [numPassF_run d (by simpa using hdne) (fun c hc => List.all_eq_true.mp hdig c hc)
      (renderF rest t) hheadrest ((d ++ renderF rest t).length)
      le_rfl]
    rw [ih t false true (renderF rest t).length hrest (by simp) (fun _ => rfl) le_rfl]
    simp [renderTokL]

/-- Claim C6, amended.  Canonicalization collapses same-template messages to
one key *when the volatile substitution cannot interact with the other
shape classes*: for any two messages that instantiate a common sanitised
template — identical literal chunks free of digits, dashes and `x`/`X`,
with non-word characters flanking every slot — with arbitrary nonempty
digit runs in the slots, `normalizeMessage` yields the same canonical key.
(Without the sanitisation the collapse can fail: see the counterexample,
where a digit-run substitution destroys an ISO-timestamp shape.) -/
theorem C6_canonicalize_collapses (ps qs : List (Str × Str)) (t : Str)
    (hlits : ps.map Prod.fst = qs.map Prod.fst)
    (hp : pairsOkB true ps t = true) (hq : pairsOkB true qs t = true) :
    normalizeMessage (renderF ps t) = normalizeMessage (renderF qs t) := by
  unfold normalizeMessage uuidPass tsPass numPass
  rw [uuidPassF_id _ _ _ (renderF_no_dash ps t true hp),
      uuidPassF_id _ _ _ (renderF_no_dash qs t true hq),
      tsPassF_id _ _ _ (renderF_no_dash ps t true hp),
      tsPassF_id _ _ _ (renderF_no_dash qs t true hq),
      numPassF_renderF ps t true false _ hp (fun _ => rfl) (by simp) le_rfl,
      numPassF_renderF qs t true false _ hq (fun _ => rfl) (by simp) le_rfl,
      hlits]

/-- Witness for C6 (amended): `"Request 123 failed"` and
`"Request 4567 failed"` instantiate the sanitised template
`"Request " ⟨run⟩ " failed"` and share one canonical key. -/
theorem C6_canonicalize_collapses_witness :
    pairsOkB true [("Request ".toList, "123".toList)] " failed".toList = true ∧
    pairsOkB true [("Request ".toList, "4567".toList)] " failed".toList = true ∧
    normalizeMessage (renderF [("Request ".toList, "123".toList)] " failed".toList)
      = normalizeMessage (renderF [("Request ".toList, "4567".toList)] " failed".toList) :=
  ⟨by decide, by decide,
   C6_canonicalize_collapses [("Request ".toList, "123".toList)]
     [("Request ".toList, "4567".toList)] " failed".toList
     (by decide) (by decide) (by decide)⟩

end LogAnalysis
